import Mathlib

/-!
Verification development for the Stone → Rust code-generation backend of
dropbox-sdk-rust (src/generator/rust.stoneg.py and src/generator/test.stoneg.py).

The generator emits Rust serde codecs for Stone structs and unions.  We give a
shallow embedding of the *semantics of the emitted Rust code* over a fragment of
the Stone IR (boolean / integer / string primitives, nullable wrappers, plain
structs, tagged unions with void / primitive / nullable-primitive / struct /
nullable-struct payloads, and enumerated-subtype (polymorphic) structs).  A JSON
object is modelled as the ordered list of its key/value entries, which is exactly
what a serde `MapAccess` hands to the emitted `visit_map` code.

We also embed the generation-time validation performed by
`RustBackend._impl_serde_for_union`, the test-value synthesis of
`TestBackend.make_test_values` / `make_test_field`, and the regex-inversion
engine `Unregex._generate` of test.stoneg.py.
-/

namespace StoneRust

/-- The primitive Stone types of the modelled fragment. -/
inductive Prim where
  | pBool
  | pInt
  | pStr
deriving DecidableEq, Repr

/-- A primitive value. Stone integer types are modelled as unbounded `Int`
(the emitted Rust uses the corresponding machine integer types; no claim in
scope depends on overflow behaviour). -/
inductive PrimVal where
  | vBool (b : Bool)
  | vInt (n : Int)
  | vStr (s : String)
deriving DecidableEq, Repr

/-- `v` is a value of primitive type `p`. -/
def PrimVal.matchesPrim : PrimVal → Prim → Bool
  | .vBool _, .pBool => true
  | .vInt _, .pInt => true
  | .vStr _, .pStr => true
  | _, _ => false

/-- JSON values of the fragment (objects appear only as the top-level ordered
key/value list handed to `visit_map`, so no object constructor is needed). -/
inductive Json where
  | null
  | jBool (b : Bool)
  | jInt (n : Int)
  | jStr (s : String)
deriving DecidableEq, Repr

/-- What serde_json produces for a primitive value. -/
def encodePrim : PrimVal → Json
  | .vBool b => .jBool b
  | .vInt n => .jInt n
  | .vStr s => .jStr s

/-- Decode errors of the emitted deserializers (`serde::de::Error` constructors
used by the generated code). -/
inductive DecErr where
  | duplicateField (name : String)
  | missingField (name : String)
  | unknownVariant (tag : String)
  | unknownField (name : String)
  | invalidType
deriving DecidableEq, Repr

/-- `map.next_value::<T>()` at a primitive Rust type `T`. -/
def parsePrim : Prim → Json → Except DecErr PrimVal
  | .pBool, .jBool b => .ok (.vBool b)
  | .pInt, .jInt n => .ok (.vInt n)
  | .pStr, .jStr s => .ok (.vStr s)
  | _, _ => .error .invalidType

/-- `map.next_value::<Option<T>>()` at a primitive `T` (JSON null is `None`). -/
def parseNullable (p : Prim) : Json → Except DecErr (Option PrimVal)
  | .null => .ok none
  | j => (parsePrim p j).map some

/-- A Stone struct field of the fragment: name, primitive type, whether the
Stone type is `Nullable`, and the declared default, if any.  (Stone forbids a
field that is both nullable and carries a non-null default.) -/
structure SField where
  name : String
  p : Prim
  nullable : Bool
  dflt : Option PrimVal
deriving DecidableEq, Repr

/-- A field is required when it is neither nullable nor defaulted
(Stone's `Struct.all_required_fields`). -/
def SField.required (f : SField) : Bool := !f.nullable && f.dflt.isNone

/-- A plain Stone struct. -/
structure Strukt where
  name : String
  fields : List SField
deriving DecidableEq, Repr

/-- Stone's `all_required_fields` view of a struct. -/
def Strukt.allRequiredFields (S : Strukt) : List SField :=
  S.fields.filter SField.required

/-- Stone's `all_optional_fields` view of a struct. -/
def Strukt.allOptionalFields (S : Strukt) : List SField :=
  S.fields.filter fun f => !f.required

/-- The value of a decoded Rust struct, positionally aligned with `fields`.
For a nullable field the entry is the `Option` payload; for a non-nullable
field the emitted Rust type always holds a value, so the entry is `some`. -/
abbrev StructVal := List (Option PrimVal)

/-- One mutable `let mut field_x = None;` slot of the emitted deserializer:
`none` = not seen yet, `some w` = recorded (for a nullable field `w` itself is
the parsed `Option`; for other fields `w = some v`). -/
abbrev Rec := Option (Option PrimVal)

/-- Key/value entries of a JSON object, in document order (what a serde
`MapAccess` yields). -/
abbrev KVs := List (String × Json)

/-- `map.next_value()` at the Rust type of field `f`
(`Option<T>` for a nullable field, `T` otherwise). -/
def parseFieldVal (f : SField) (j : Json) : Except DecErr (Option PrimVal) :=
  if f.nullable then parseNullable f.p j
  else (parsePrim f.p j).map some

/-- The `while let Some(key) = map.next_key::<&str>()?` loop of the emitted
`internal_deserialize`: dispatch on the declared field names (first matching
arm), error on a duplicate of a declared key, parse the value at the field's
type, and read-and-discard unknown keys. -/
def readFields (fields : List SField) : KVs → List Rec → Except DecErr (List Rec)
  | [], acc => .ok acc
  | (k, j) :: rest, acc =>
    let i := fields.findIdx fun f => f.name == k
    if h : i < fields.length then
      -- `"<field.name>" =>` arm: duplicate check, then `map.next_value()?`
      if (acc.getD i none).isSome then .error (.duplicateField k)
      else
        match parseFieldVal (fields.get ⟨i, h⟩) j with
        | .error e => .error e
        | .ok w => readFields fields rest (acc.set i (some w))
    else
      -- `_ =>` arm: unknown field allowed and ignored
      readFields fields rest acc

/-- Resolution of one field after all keys are consumed, mirroring the struct
literal of the emitted code: a nullable field is
`field_x.and_then(Option::flatten)`, a defaulted field is
`field_x.unwrap_or(<default>)` (`unwrap_or_default()` for the empty-string
default, which yields the same value), and a required field is
`field_x.ok_or_else(|| missing_field("<name>"))?`. -/
def resolveField (f : SField) (r : Rec) : Except DecErr (Option PrimVal) :=
  if f.nullable then .ok r.join
  else
    match f.dflt with
    | some d => .ok (some (r.join.getD d))
    | none =>
      match r.join with
      | some v => .ok (some v)
      | none => .error (.missingField f.name)

/-- Build the struct literal field by field, in declared order, propagating the
first resolution error (the `?` on each `ok_or_else`). -/
def resolveAll : List (SField × Rec) → Except DecErr StructVal
  | [] => .ok []
  | (f, r) :: rest => do
    let v ← resolveField f r
    let vs ← resolveAll rest
    .ok (v :: vs)

/-- Semantics of the emitted `internal_deserialize` for a plain struct
(`RustBackend._impl_serde_for_struct`): read the whole map, then resolve every
field. -/
def internal_deserialize (S : Strukt) (kvs : KVs) : Except DecErr StructVal := do
  let acc ← readFields S.fields kvs (S.fields.map fun _ => none)
  resolveAll (S.fields.zip acc)

/-- Semantics of the emitted `internal_deserialize_opt` (only emitted when the
struct has at least one required field).  `nothing` is true iff the while loop
consumed no keys, i.e. iff the map was empty. -/
def internal_deserialize_opt (S : Strukt) (optional : Bool) (kvs : KVs) :
    Except DecErr (Option StructVal) := do
  let acc ← readFields S.fields kvs (S.fields.map fun _ => none)
  if optional && kvs.isEmpty then .ok none
  else (resolveAll (S.fields.zip acc)).map some

/-- The generator's decision whether to emit the second, `_opt` deserializer
entry point: `optional = len(struct.all_required_fields) > 0`
(rust.stoneg.py line 413). -/
def emits_opt_deserializer (S : Strukt) : Bool :=
  0 < S.allRequiredFields.length

/-- The per-field guard of the emitted `internal_serialize`, for a field with a
value (non-nullable): no default → always write; empty-string default →
`if !self.f.is_empty()`; boolean default `b` → `if !self.f` / `if self.f`,
i.e. write iff the value differs from `b`; any other default →
`if self.f != <default>`. -/
def fieldGuard (f : SField) (x : PrimVal) : Bool :=
  match f.dflt with
  | none => true
  | some (.vStr "") =>
    match x with
    | .vStr s => !(s == "")
    | _ => true
  | some (.vBool b) =>
    match x with
    | .vBool v => v != b
    | _ => true
  | some d => x != d

/-- `internal_serialize` for one field: a nullable field is written iff the
value is present (`if let Some(val) = &self.f`); otherwise the guard above
decides. The `none` value for a non-nullable field is unrepresentable in the
emitted Rust struct and produces nothing. -/
def serializeField (f : SField) (fv : Option PrimVal) : KVs :=
  if f.nullable then
    match fv with
    | some x => [(f.name, encodePrim x)]
    | none => []
  else
    match fv with
    | some x => if fieldGuard f x then [(f.name, encodePrim x)] else []
    | none => []

/-- Semantics of the emitted `internal_serialize` for a plain struct: the
fields written, in declared order. -/
def internal_serialize (S : Strukt) (v : StructVal) : KVs :=
  (S.fields.zip v).flatMap fun fr => serializeField fr.1 fr.2

/-! ## Unions -/

/-- The payload of a union variant in the modelled fragment:
void, a primitive, a nullable primitive, a plain struct, or a nullable
plain struct. -/
inductive UPayload where
  | void
  | prim (p : Prim)
  | nprim (p : Prim)
  | strukt (S : Strukt)
  | nstrukt (S : Strukt)
deriving DecidableEq, Repr

/-- A union variant (a Stone `UnionField`): tag name, payload type, and the
`catch_all` marker (a catch-all variant is void-typed). -/
structure UVariant where
  name : String
  payload : UPayload
  catchAll : Bool
deriving DecidableEq, Repr

/-- A Stone union: name, `closed` flag, and all variants (`all_fields`). -/
structure SUnion where
  name : String
  closed : Bool
  variants : List UVariant
deriving DecidableEq, Repr

/-- A value of the emitted Rust enum. `other` is the `Other` catch-all variant
emitted for open unions. -/
inductive UPayloadVal where
  | pvoid
  | pprim (v : PrimVal)
  | pnprim (v : Option PrimVal)
  | pstrukt (v : StructVal)
  | pnstrukt (v : Option StructVal)
deriving DecidableEq, Repr

inductive UnionVal where
  | variant (name : String) (pv : UPayloadVal)
  | other
deriving DecidableEq, Repr

/-- `len(union.all_fields) == 1 and union.all_fields[0].catch_all`: an open
union with no defined variants. -/
def fullyOpen (U : SUnion) : Bool :=
  match U.variants with
  | [v] => v.catchAll
  | _ => false

/-- Semantics of the emitted union deserializer
(`RustBackend._impl_serde_for_union`): the first key must be `.tag` and its
value a string; a fully-open union consumes the rest and yields `Other`;
otherwise dispatch on the tag over the non-catch-all variants (the emitter
skips `catch_all` fields when writing match arms), decode the payload
according to its shape, consume any remaining fields, and map an unmatched
tag to `Other` for an open union or to an `unknown_variant` error for a
closed one. -/
def decodeUnion (U : SUnion) (kvs : KVs) : Except DecErr UnionVal :=
  match kvs with
  | (k, tagJson) :: rest =>
    if k = ".tag" then
      match tagJson with
      | .jStr tag =>
        if fullyOpen U then .ok .other
        else
          match (U.variants.filter fun v => !v.catchAll).find? fun v => v.name == tag with
          | some v =>
            match v.payload with
            | .void => .ok (.variant v.name .pvoid)
            | .strukt S =>
              (internal_deserialize S rest).map fun sv => .variant v.name (.pstrukt sv)
            | .nstrukt S =>
              (internal_deserialize_opt S true rest).map fun so => .variant v.name (.pnstrukt so)
            | .prim p =>
              match rest with
              | (k2, j2) :: _ =>
                if k2 = v.name then (parsePrim p j2).map fun x => .variant v.name (.pprim x)
                else .error (.unknownField tag)
              | [] => .error (.missingField v.name)
            | .nprim p =>
              match rest with
              | (k2, j2) :: _ =>
                if k2 = v.name then (parseNullable p j2).map fun x => .variant v.name (.pnprim x)
                else .error (.unknownField tag)
              | [] => .ok (.variant v.name (.pnprim none))
          | none => if U.closed then .error (.unknownVariant tag) else .ok .other
      | _ => .error .invalidType
    else .error (.missingField ".tag")
  | [] => .error (.missingField ".tag")

/-- Semantics of the emitted union serializer.  A fully-open union always
fails with the explicit error message; otherwise serialization writes `.tag`
first and then the payload (struct fields hoisted into the same object, a
primitive under a key equal to the variant name, a `None` nullable payload as
the tag alone), and the `Other` variant fails.  A `UnionVal` whose name or
payload shape does not match a declared variant is unrepresentable in the
emitted Rust enum; those cases return a placeholder error. -/
def encodeUnion (U : SUnion) (uv : UnionVal) : Except String KVs :=
  if fullyOpen U then
    .error "cannot serialize an open union with no defined variants"
  else
    match uv with
    | .other => .error "cannot serialize \x27Other\x27 variant"
    | .variant nm pv =>
      match (U.variants.filter fun v => !v.catchAll).find? fun v => v.name == nm with
      | none => .error "unrepresentable variant"
      | some v =>
        match v.payload, pv with
        | .void, .pvoid => .ok [(".tag", .jStr v.name)]
        | .strukt S, .pstrukt sv => .ok ((".tag", Json.jStr v.name) :: internal_serialize S sv)
        | .nstrukt S, .pnstrukt (some sv) =>
          .ok ((".tag", Json.jStr v.name) :: internal_serialize S sv)
        | .nstrukt _, .pnstrukt none => .ok [(".tag", .jStr v.name)]
        | .prim _, .pprim x => .ok [(".tag", .jStr v.name), (v.name, encodePrim x)]
        | .nprim _, .pnprim (some x) => .ok [(".tag", .jStr v.name), (v.name, encodePrim x)]
        | .nprim _, .pnprim none => .ok [(".tag", .jStr v.name)]
        | _, _ => .error "unrepresentable payload"

/-- The generation-time validation performed while emitting the union
deserializer match arms: a variant whose payload is a nullable struct with no
required fields raises
`RuntimeError(f'{union.name}.{field.name}: an optional struct with no required
fields is ambiguous')`, aborting generation. -/
def unionVariantChecks (unionName : String) : List UVariant → Except String Unit
  | [] => .ok ()
  | f :: rest =>
    if f.catchAll then unionVariantChecks unionName rest
    else
      match f.payload with
      | .nstrukt S =>
        if S.allRequiredFields.isEmpty then
          .error (unionName ++ "." ++ f.name ++
            ": an optional struct with no required fields is ambiguous")
        else unionVariantChecks unionName rest
      | _ => unionVariantChecks unionName rest

/-- `RustBackend._impl_serde_for_union`'s generation-time checks: a fully-open
union skips the per-variant match arms (and hence the check); otherwise each
variant is checked in declared order. -/
def impl_serde_for_union_check (U : SUnion) : Except String Unit :=
  if fullyOpen U then .ok () else unionVariantChecks U.name U.variants

/-! ## Enumerated-subtype (polymorphic) structs -/

/-- An enumerated-subtype struct: tag names with their subtype structs, and
the `is_catch_all` flag. -/
structure PolyStruct where
  name : String
  subtypes : List (String × Strukt)
  isCatchAll : Bool
deriving DecidableEq, Repr

inductive PolyVal where
  | pvariant (tag : String) (sv : StructVal)
  | pother
deriving DecidableEq, Repr

/-- Semantics of the emitted deserializer for an enumerated-subtype struct
(`RustBackend._impl_serde_for_polymorphic_struct`): `.tag` first, dispatch to
the subtype's `internal_deserialize` over the remaining keys, unknown tags
yield `Other` when the struct is a catch-all and an `unknown_variant` error
otherwise. -/
def decodePolymorphic (P : PolyStruct) (kvs : KVs) : Except DecErr PolyVal :=
  match kvs with
  | (k, tagJson) :: rest =>
    if k = ".tag" then
      match tagJson with
      | .jStr tag =>
        match P.subtypes.find? fun st => st.1 == tag with
        | some st => (internal_deserialize st.2 rest).map (PolyVal.pvariant tag)
        | none => if P.isCatchAll then .ok .pother else .error (.unknownVariant tag)
      | _ => .error .invalidType
    else .error (.missingField ".tag")
  | [] => .error (.missingField ".tag")

/-! ## Test-value synthesis (TestBackend of test.stoneg.py) -/

/-- The sentinel used by `make_test_field` for unbounded Stone integers:
`typ.max_value or typ.maximum or 1e307`; the fragment's integer type stands
for UInt64, whose `maximum` is `2^64 - 1`. -/
def intSentinel : Int := 2 ^ 64 - 1

/-- `make_test_field`'s leaf values: booleans use `True`, integers the type's
maximum, and unconstrained strings the literal `'something'`. -/
def synthPrim : Prim → PrimVal
  | .pBool => .vBool true
  | .pInt => .vInt intSentinel
  | .pStr => .vStr "something"

/-- The synthesized reference object with every field set
(`TestStruct` with `no_optional_fields=False`); `none` would mean the field
was left unset on the reference object. -/
def synthFull (S : Strukt) : StructVal :=
  S.fields.map fun f => some (synthPrim f.p)

/-- The synthesized reference object that leaves every defaulted or nullable
field unset (`TestStruct` with `no_optional_fields=True`). -/
def synthReqOnly (S : Strukt) : StructVal :=
  S.fields.map fun f =>
    if f.nullable || f.dflt.isSome then none else some (synthPrim f.p)

/-- `TestBackend.make_test_values` for a plain struct: the all-fields value,
plus the required-only value when the struct has optional fields. -/
def structTestValues (S : Strukt) : List StructVal :=
  [synthFull S] ++ (if S.allOptionalFields.isEmpty then [] else [synthReqOnly S])

/-- The Rust-side value the emitted test asserts after decoding: a field set
on the reference object must decode to that value; an unset field must decode
to `None` when nullable and to the declared default otherwise
(`test_field_with_value`). -/
def resolveMissing (f : SField) : Option PrimVal :=
  if f.nullable then none else f.dflt

def expectedOf (S : Strukt) (sv : StructVal) : StructVal :=
  (S.fields.zip sv).map fun fr =>
    match fr.2 with
    | some x => some x
    | none => resolveMissing fr.1

/-- Modelled from the spec: the reference codec (the trusted, external Stone
Python `json_encode`, out of scope of this repository) "encodes values per the
same wire contract"; for a struct object it writes one key per field that was
set on the reference object, in declared order, with the primitive value
encoding of the fragment.  Fields left unset by the synthesizer are omitted
from the JSON (test.stoneg.py line 408: "don't set the field value on this
struct (so it is omitted from the JSON)"). -/
def refEncodeStruct (S : Strukt) (sv : StructVal) : KVs :=
  (S.fields.zip sv).flatMap fun fr =>
    match fr.2 with
    | some x => [(fr.1.name, encodePrim x)]
    | none => []

/-- The synthesized value for one union variant (`TestUnion` via
`make_test_field` on the variant's payload type, `no_optional_fields=False`):
nullable payloads are generated present (`Some`), struct payloads fully set. -/
def unionTestValue (v : UVariant) : UnionVal :=
  .variant v.name
    (match v.payload with
     | .void => .pvoid
     | .prim p => .pprim (synthPrim p)
     | .nprim p => .pnprim (some (synthPrim p))
     | .strukt S => .pstrukt (synthFull S)
     | .nstrukt S => .pnstrukt (some (synthFull S)))

/-- Modelled from the spec: the reference codec's JSON for a synthesized union
value — the `.tag` key first, then the payload per the wire conventions
(struct fields hoisted into the same object, a primitive under a key equal to
the variant name). -/
def refEncodeUnion (v : UVariant) : KVs :=
  (".tag", Json.jStr v.name) ::
    (match v.payload with
     | .void => []
     | .prim p => [(v.name, encodePrim (synthPrim p))]
     | .nprim p => [(v.name, encodePrim (synthPrim p))]
     | .strukt S => refEncodeStruct S (synthFull S)
     | .nstrukt S => refEncodeStruct S (synthFull S))

/-! ## Well-formedness (invariants guaranteed by the upstream Stone IR) -/

/-- IR invariants for one field: not simultaneously nullable and defaulted,
and a declared default has the field's type. -/
def wfField (f : SField) : Bool :=
  !(f.nullable && f.dflt.isSome) &&
    (match f.dflt with
     | some d => d.matchesPrim f.p
     | none => true)

/-- IR invariants for a struct: distinct field names, well-formed fields. -/
def wfStruct (S : Strukt) : Bool :=
  decide (S.fields.map SField.name).Nodup && S.fields.all wfField

/-- Struct payloads of a union must be well-formed; a nullable struct payload
must have a required field (otherwise generation aborts, claim C8). -/
def wfPayload : UPayload → Bool
  | .strukt S => wfStruct S
  | .nstrukt S => wfStruct S && !S.allRequiredFields.isEmpty
  | _ => true

/-- IR invariants for a union: distinct variant names, well-formed payloads,
catch-all variants are void, and a closed union has no catch-all. -/
def wfUnion (U : SUnion) : Bool :=
  decide (U.variants.map UVariant.name).Nodup &&
    U.variants.all (fun v => wfPayload v.payload && (!v.catchAll || v.payload == .void)) &&
    (!U.closed || U.variants.all fun v => !v.catchAll)

/-- A `StructVal` representable by the emitted Rust struct type: aligned with
the fields, type-correct, and non-nullable fields hold a value. -/
def goodVal (S : Strukt) (v : StructVal) : Bool :=
  v.length == S.fields.length &&
    (S.fields.zip v).all fun fr =>
      (match fr.2 with
       | some x => x.matchesPrim fr.1.p
       | none => true) &&
      (fr.1.nullable || fr.2.isSome)

/-! ## The regex-inversion engine (`Unregex` of test.stoneg.py) -/

/-- The parsed regex tokens handled by `Unregex._generate` (the sre opcodes it
recognizes).  Characters are modelled by their code points; generated text is
a list of code points. -/
inductive RTok where
  | lit (c : Nat)
  | anchor
  | inCls (items : List RTok)
  | anyChar
  | rangeTok (lo hi : Nat)
  | branch (alts : List (List RTok))
  | subpattern (g : Nat) (sub : List RTok)
  | groupref (g : Nat)
  | repeatTok (minR maxR : Nat) (sub : List RTok)
  | category (word : Bool)
  | assertNot
  | assertLk
  | negate
deriving Repr

mutual
/-- `Unregex._generate` over a token list: generate each token in order,
threading the group-reference table (`self._group_refs`), concatenating the
results.  `minLen` is `self._min_len` with Python truthiness (`0` stands for
both `None` and an explicit 0, which `if self._min_len:` treats alike). -/
def genList (minLen : Nat) (refs : List (Nat × List Nat)) :
    List RTok → Except String (List Nat × List (Nat × List Nat))
  | [] => .ok ([], refs)
  | t :: rest => do
    let (s1, r1) ← genTok minLen refs t
    let (s2, r2) ← genList minLen r1 rest
    .ok (s1 ++ s2, r2)

/-- `Unregex._generate` on a single token (one iteration of its loop). -/
def genTok (minLen : Nat) (refs : List (Nat × List Nat)) :
    RTok → Except String (List Nat × List (Nat × List Nat))
  | .lit c => .ok ([c], refs)
  | .anchor => .ok ([], refs)
  | .inCls items =>
    -- Only the loop's own `opcode` is `str(...).lower()`-converted; the
    -- guard `argument[0][0] == 'negate'` compares the raw sre
    -- `_NamedIntConstant` to a str and is always False on Python 3, so the
    -- negated-class branch (and its rejection-set loop) is dead code and
    -- EVERY class — negated or not — recurses on its first item:
    -- `self._generate([argument[0]])`.
    match items with
    | [] => .error "IndexError"
    | it :: _ => genTok minLen refs it
  | .anyChar => .ok ([42], refs)
  | .rangeTok lo _ => .ok ([lo], refs)
  | .branch alts =>
    match alts with
    | b :: _ => genList minLen refs b
    | [] => .error "IndexError"
  | .subpattern g sub => do
    let (s, r1) ← genList minLen refs sub
    .ok (s, (g, s) :: r1)
  | .groupref g =>
    match refs.lookup g with
    | some s => .ok (s, refs)
    | none => .error "KeyError"
  | .repeatTok minR maxR sub =>
    -- `n = max(min_repeat, min(self._min_len, max_repeat))` when min_len is
    -- truthy, else `n = min_repeat`; the subpattern is generated once and the
    -- result repeated `n` times (not at all when `n == 0`).
    let n := if minLen ≠ 0 then max minR (min minLen maxR) else minR
    if n = 0 then .ok ([], refs)
    else do
      let (s, r1) ← genList minLen refs sub
      .ok ((List.replicate n s).flatten, r1)
  | .category word => if word then .ok ([65], refs) else .error "NotImplementedError"
  | .assertNot => .ok ([], refs)
  | .assertLk => .error "NotImplementedError: regex opcode assert not implemented"
  -- a bare NEGATE item reaches the final dispatch, whose str-lowered opcode
  -- is `negate` and raises (the source comment claims it is handled in the
  -- `in` opcode, but that handler never fires)
  | .negate => .error "NotImplementedError: regex opcode negate not implemented"
end

/-! ## List helpers -/

/-- Placeholder used with `List.getD` on field lists. -/
def dummyField : SField := ⟨"", .pBool, false, none⟩

theorem getD_eq_get (l : List α) (d : α) {i : Nat} (h : i < l.length) :
    l.getD i d = l.get ⟨i, h⟩ := by
  simp [List.getD_eq_getElem?_getD, List.getElem?_eq_getElem h]

theorem getD_set_self (l : List α) (i : Nat) (v d : α) (h : i < l.length) :
    (l.set i v).getD i d = v := by
  simp [List.getD_eq_getElem?_getD, List.getElem?_set, h]

theorem getD_set_ne (l : List α) {i j : Nat} (v d : α) (h : i ≠ j) :
    (l.set i v).getD j d = l.getD j d := by
  simp [List.getD_eq_getElem?_getD, List.getElem?_set, h]

theorem getD_mem (l : List α) (d : α) {i : Nat} (h : i < l.length) :
    l.getD i d ∈ l := by
  rw [List.getD_eq_getElem?_getD, List.getElem?_eq_getElem h]
  simp only [Option.getD_some]
  exact List.getElem_mem h

theorem ext_getD (d : α) : ∀ (l1 l2 : List α), l1.length = l2.length →
    (∀ i, i < l1.length → l1.getD i d = l2.getD i d) → l1 = l2
  | [], [], _, _ => rfl
  | a :: t1, b :: t2, hl, hp => by
    have h0 := hp 0 (by simp)
    simp only [List.getD_cons_zero] at h0
    subst h0
    have := ext_getD d t1 t2 (by simpa using hl) fun i hi => by
      have := hp (i + 1) (by simpa using Nat.succ_lt_succ hi)
      simpa using this
    rw [this]

theorem findIdx_le_of_pred (p : α → Bool) (d : α) :
    ∀ (l : List α) (i : Nat), i < l.length → p (l.getD i d) = true → l.findIdx p ≤ i
  | [], i, hi, _ => by simp at hi
  | a :: t, i, hi, hp => by
    rw [List.findIdx_cons]
    cases hpa : p a with
    | true => simp
    | false =>
      cases i with
      | zero => simp [List.getD_cons_zero, hpa] at hp
      | succ n =>
        simp only [hpa, cond_false]
        exact Nat.succ_le_succ
          (findIdx_le_of_pred p d t n (by simpa using Nat.lt_of_succ_lt_succ hi)
            (by simpa using hp))

theorem findIdx_pred (p : α → Bool) (d : α) (l : List α)
    (h : l.findIdx p < l.length) : p (l.getD (l.findIdx p) d) = true := by
  rw [getD_eq_get l d h]
  exact List.findIdx_getElem

theorem findIdx_lt_of_pred (p : α → Bool) (d : α) (l : List α) {i : Nat}
    (hi : i < l.length) (hp : p (l.getD i d) = true) : l.findIdx p < l.length :=
  Nat.lt_of_le_of_lt (findIdx_le_of_pred p d l i hi hp) hi

/-- Under distinct names, only index `i` carries the name of field `i`. -/
theorem name_index_inj : ∀ (l : List SField),
    (l.map SField.name).Nodup → ∀ (i j : Nat), i < l.length → j < l.length →
    (l.getD i dummyField).name = (l.getD j dummyField).name → i = j
  | [], _, i, _, hi, _, _ => by simp at hi
  | a :: t, hn, i, j, hi, hj, h => by
    have hn2 : a.name ∉ t.map SField.name ∧ (t.map SField.name).Nodup := by
      rw [List.map_cons] at hn
      exact List.nodup_cons.mp hn
    cases i with
    | zero =>
      cases j with
      | zero => rfl
      | succ n =>
        exfalso
        apply hn2.1
        simp only [List.getD_cons_zero, List.getD_cons_succ] at h
        rw [h]
        exact List.mem_map.mpr
          ⟨_, getD_mem t dummyField (by simpa using Nat.lt_of_succ_lt_succ hj), rfl⟩
    | succ m =>
      cases j with
      | zero =>
        exfalso
        apply hn2.1
        simp only [List.getD_cons_zero, List.getD_cons_succ] at h
        rw [← h]
        exact List.mem_map.mpr
          ⟨_, getD_mem t dummyField (by simpa using Nat.lt_of_succ_lt_succ hi), rfl⟩
      | succ n =>
        have := name_index_inj t hn2.2 m n (by simpa using Nat.lt_of_succ_lt_succ hi)
          (by simpa using Nat.lt_of_succ_lt_succ hj) (by simpa using h)
        omega

/-- With distinct names, looking up the name of field `i` finds index `i`. -/
theorem findIdx_name_self (l : List SField) (hn : (l.map SField.name).Nodup)
    (i : Nat) (hi : i < l.length) :
    l.findIdx (fun f => f.name == (l.getD i dummyField).name) = i := by
  have hp : (fun f => f.name == (l.getD i dummyField).name) (l.getD i dummyField) = true := by
    simp
  have hlt := findIdx_lt_of_pred (fun f => f.name == (l.getD i dummyField).name) dummyField l hi hp
  have hfp := findIdx_pred (fun f => f.name == (l.getD i dummyField).name) dummyField l hlt
  exact name_index_inj l hn _ i hlt hi (by simpa using hfp)

theorem initAcc_getD (fields : List SField) (i : Nat) :
    (fields.map fun _ => (none : Rec)).getD i none = none := by
  induction fields generalizing i with
  | nil => simp [List.getD_nil]
  | cons a t ih =>
    cases i with
    | zero => simp [List.getD_cons_zero]
    | succ n => rw [List.map_cons, List.getD_cons_succ]; exact ih n

/-! ## Behaviour of the emitted struct deserializer's key loop on benign maps -/

/-- On a map with distinct keys whose declared-key values parse and whose
matched slots are fresh, the key loop succeeds; a declared field absent from
the map keeps its slot, and a declared field present in the map records its
parsed value. -/
theorem readFields_benign (fields : List SField) (hn : (fields.map SField.name).Nodup) :
    ∀ (kvs : KVs) (acc : List Rec),
      acc.length = fields.length →
      (kvs.map Prod.fst).Nodup →
      (∀ k j, (k, j) ∈ kvs →
        fields.findIdx (fun f => f.name == k) < fields.length →
        (∃ w, parseFieldVal (fields.getD (fields.findIdx fun f => f.name == k) dummyField) j
            = .ok w)
        ∧ acc.getD (fields.findIdx fun f => f.name == k) none = none) →
      ∃ acc2, readFields fields kvs acc = .ok acc2 ∧ acc2.length = acc.length ∧
        (∀ i, i < fields.length → (fields.getD i dummyField).name ∉ kvs.map Prod.fst →
          acc2.getD i none = acc.getD i none) ∧
        (∀ i j w, i < fields.length → ((fields.getD i dummyField).name, j) ∈ kvs →
          parseFieldVal (fields.getD i dummyField) j = .ok w →
          acc2.getD i none = some w) := by
  intro kvs
  induction kvs with
  | nil =>
    intro acc hlen _ _
    exact ⟨acc, rfl, rfl, fun i _ _ => rfl, fun i j w _ hmem _ => absurd hmem (by simp)⟩
  | cons kv rest ih =>
    obtain ⟨k, j⟩ := kv
    intro acc hlen hnk hpf
    have hnodup : (rest.map Prod.fst).Nodup := (List.nodup_cons.mp (by simpa using hnk)).2
    have hknotin : k ∉ rest.map Prod.fst := (List.nodup_cons.mp (by simpa using hnk)).1
    by_cases hlt : fields.findIdx (fun f => f.name == k) < fields.length
    · obtain ⟨⟨w, hw⟩, hfresh⟩ := hpf k j (by simp) hlt
      have hkname : (fields.getD (fields.findIdx fun f => f.name == k) dummyField).name = k := by
        have := findIdx_pred (fun f => f.name == k) dummyField fields hlt
        simpa using this
      obtain ⟨acc2, hrun, hlen2, hC1, hC2⟩ :=
        ih (acc.set (fields.findIdx fun f => f.name == k) (some w))
          (by rw [List.length_set]; exact hlen)
          hnodup
          (by
            intro k2 j2 hmem2 hlt2
            obtain ⟨hp2, hf2⟩ := hpf k2 j2 (List.mem_cons.mpr (Or.inr hmem2)) hlt2
            refine ⟨hp2, ?_⟩
            have hk2name :
                (fields.getD (fields.findIdx fun f => f.name == k2) dummyField).name = k2 := by
              have := findIdx_pred (fun f => f.name == k2) dummyField fields hlt2
              simpa using this
            have hne : (fields.findIdx fun f => f.name == k) ≠
                (fields.findIdx fun f => f.name == k2) := by
              intro heq
              apply hknotin
              have hkk : k = k2 := by rw [← hkname, heq, hk2name]
              rw [hkk]
              exact List.mem_map.mpr ⟨(k2, j2), hmem2, rfl⟩
            rw [getD_set_ne acc (some w) none hne]
            exact hf2)
      refine ⟨acc2, ?_, by rw [hlen2, List.length_set], ?_, ?_⟩
      · rw [readFields]
        simp only [dif_pos hlt, hfresh]
        rw [← getD_eq_get fields dummyField hlt] at *
        simp only [Option.isSome_none, Bool.false_eq_true, if_false, hw]
        exact hrun
      · intro i hi hnotin
        have hne : (fields.findIdx fun f => f.name == k) ≠ i := by
          intro heq
          apply hnotin
          rw [← heq, hkname]
          simp
        rw [hC1 i hi (fun hmem => hnotin (by simpa using Or.inr hmem))]
        exact getD_set_ne acc (some w) none hne
      · intro i j2 w2 hi hmem hparse
        rcases List.mem_cons.mp hmem with hhead | hrest
        · have hkeq : (fields.getD i dummyField).name = k := congrArg Prod.fst hhead
          have hjeq : j2 = j := congrArg Prod.snd hhead
          have hieq : (fields.findIdx fun f => f.name == k) = i :=
            name_index_inj fields hn _ i hlt hi (by rw [hkname, hkeq])
          have hw3 : parseFieldVal (fields.getD i dummyField) j = .ok w := by
            rw [← hieq]; exact hw
          have hw2 : w2 = w := by
            rw [hjeq] at hparse
            exact Except.ok.inj (hparse.symm.trans hw3)
          rw [hw2]
          have hni : (fields.getD i dummyField).name ∉ rest.map Prod.fst := by
            rw [hkeq]; exact hknotin
          rw [hC1 i hi hni, ← hieq]
          exact getD_set_self acc _ (some w) none (by rw [hlen]; exact hlt)
        · exact hC2 i j2 w2 hi hrest hparse
    · obtain ⟨acc2, hrun, hlen2, hC1, hC2⟩ :=
        ih acc hlen hnodup
          (fun k2 j2 hmem2 hlt2 => hpf k2 j2 (List.mem_cons.mpr (Or.inr hmem2)) hlt2)
      refine ⟨acc2, ?_, hlen2, ?_, ?_⟩
      · rw [readFields]
        simp only [dif_neg hlt]
        exact hrun
      · intro i hi hnotin
        exact hC1 i hi (fun hmem => hnotin (by simpa using Or.inr hmem))
      · intro i j2 w2 hi hmem hparse
        rcases List.mem_cons.mp hmem with hhead | hrest
        · exfalso
          have hkeq : (fields.getD i dummyField).name = k := congrArg Prod.fst hhead
          exact hlt (findIdx_lt_of_pred (fun f => f.name == k) dummyField fields hi
            (by show ((fields.getD i dummyField).name == k) = true
                rw [hkeq]
                simp))
        · exact hC2 i j2 w2 hi hrest hparse

/-! ## Canonical encodings as recursive functions -/

theorem parsePrim_encode (x : PrimVal) (p : Prim) (h : x.matchesPrim p = true) :
    parsePrim p (encodePrim x) = .ok x := by
  cases x <;> cases p <;> simp_all [PrimVal.matchesPrim, parsePrim, encodePrim]

theorem parseNullable_encode (p : Prim) (x : PrimVal) (h : x.matchesPrim p = true) :
    parseNullable p (encodePrim x) = .ok (some x) := by
  cases x <;> cases p <;>
    simp_all [PrimVal.matchesPrim, parseNullable, parsePrim, encodePrim, Except.map]

theorem parseFieldVal_encode (f : SField) (x : PrimVal) (h : x.matchesPrim f.p = true) :
    parseFieldVal f (encodePrim x) = .ok (some x) := by
  unfold parseFieldVal
  by_cases hf : f.nullable
  · simp only [hf, if_true]
    exact parseNullable_encode f.p x h
  · simp only [hf, if_false]
    rw [parsePrim_encode x f.p h]
    rfl

/-- `refEncodeStruct` as a recursion over the two lists. -/
def refPairs : List SField → StructVal → KVs
  | f :: fs, some x :: os => (f.name, encodePrim x) :: refPairs fs os
  | _ :: fs, none :: os => refPairs fs os
  | _, _ => []

theorem refEncodeStruct_eq (S : Strukt) (m : StructVal) :
    refEncodeStruct S m = refPairs S.fields m := by
  unfold refEncodeStruct
  generalize S.fields = fields
  induction fields generalizing m with
  | nil => cases m <;> rfl
  | cons f fs ih =>
    cases m with
    | nil => rfl
    | cons o os =>
      cases o <;> simp [refPairs, List.zip_cons_cons, ih]

/-- `internal_serialize` as a recursion over the two lists. -/
def serPairs : List SField → StructVal → KVs
  | f :: fs, fv :: os => serializeField f fv ++ serPairs fs os
  | _, _ => []

theorem internal_serialize_eq (S : Strukt) (v : StructVal) :
    internal_serialize S v = serPairs S.fields v := by
  unfold internal_serialize
  generalize S.fields = fields
  induction fields generalizing v with
  | nil => cases v <;> rfl
  | cons f fs ih =>
    cases v with
    | nil => rfl
    | cons fv os => simp [serPairs, List.zip_cons_cons, ih]

/-- One entry of the mask of fields actually written by `internal_serialize`. -/
def maskEntry (f : SField) (fv : Option PrimVal) : Option PrimVal :=
  match fv with
  | none => none
  | some x => if f.nullable then some x else if fieldGuard f x then some x else none

/-- The mask of fields actually written by `internal_serialize`. -/
def maskedOf : List SField → StructVal → StructVal
  | f :: fs, fv :: os => maskEntry f fv :: maskedOf fs os
  | _, _ => []

theorem serPairs_eq_refPairs_masked : ∀ (fields : List SField) (v : StructVal),
    serPairs fields v = refPairs fields (maskedOf fields v)
  | [], v => by cases v <;> rfl
  | _ :: _, [] => rfl
  | f :: fs, fv :: os => by
    cases fv with
    | none =>
      simp [serPairs, maskedOf, maskEntry, refPairs, serializeField,
        serPairs_eq_refPairs_masked fs os]
    | some x =>
      by_cases hf : f.nullable
      · simp [serPairs, maskedOf, maskEntry, refPairs, serializeField, hf,
          serPairs_eq_refPairs_masked fs os]
      · by_cases hg : fieldGuard f x
        · simp [serPairs, maskedOf, maskEntry, refPairs, serializeField, hf, hg,
            serPairs_eq_refPairs_masked fs os]
        · simp [serPairs, maskedOf, maskEntry, refPairs, serializeField, hf, hg,
            serPairs_eq_refPairs_masked fs os]

theorem maskedOf_length : ∀ (fields : List SField) (v : StructVal),
    (maskedOf fields v).length = min fields.length v.length
  | [], v => by cases v <;> simp [maskedOf]
  | _ :: _, [] => by simp [maskedOf]
  | f :: fs, fv :: os => by
    simp only [maskedOf, List.length_cons, maskedOf_length fs os]
    omega

/-- Keys of a canonical encoding form a sublist of the declared names. -/
theorem refPairs_keys_sublist : ∀ (fields : List SField) (m : StructVal),
    ((refPairs fields m).map Prod.fst).Sublist (fields.map SField.name)
  | [], m => by cases m <;> simp [refPairs]
  | _ :: fs, [] => by simp [refPairs]
  | f :: fs, some x :: os => by
    simpa [refPairs] using List.Sublist.cons₂ f.name (refPairs_keys_sublist fs os)
  | f :: fs, none :: os => by
    simpa [refPairs] using List.Sublist.cons f.name (refPairs_keys_sublist fs os)

/-- Membership in a canonical encoding, forward direction. -/
theorem refPairs_mem : ∀ (fields : List SField) (m : StructVal) (k : String) (j : Json),
    (k, j) ∈ refPairs fields m →
    ∃ i, i < fields.length ∧ i < m.length ∧ (fields.getD i dummyField).name = k ∧
      ∃ x, m.getD i none = some x ∧ j = encodePrim x
  | [], m, k, j => by cases m <;> simp [refPairs]
  | _ :: fs, [], k, j => by simp [refPairs]
  | f :: fs, some x :: os, k, j => by
    intro hmem
    simp only [refPairs] at hmem
    rcases List.mem_cons.mp hmem with hhead | hrest
    · exact ⟨0, by simp, by simp, by simpa using (congrArg Prod.fst hhead).symm,
        x, by simp [List.getD_cons_zero], by simpa using congrArg Prod.snd hhead⟩
    · obtain ⟨i, hi1, hi2, hnm, x2, hx, hj⟩ := refPairs_mem fs os k j hrest
      exact ⟨i + 1, by simpa using Nat.succ_lt_succ hi1, by simpa using Nat.succ_lt_succ hi2,
        by simpa [List.getD_cons_succ] using hnm, x2, by simpa [List.getD_cons_succ] using hx, hj⟩
  | f :: fs, none :: os, k, j => by
    intro hmem
    obtain ⟨i, hi1, hi2, hnm, x2, hx, hj⟩ := refPairs_mem fs os k j (by simpa [refPairs] using hmem)
    exact ⟨i + 1, by simpa using Nat.succ_lt_succ hi1, by simpa using Nat.succ_lt_succ hi2,
      by simpa [List.getD_cons_succ] using hnm, x2, by simpa [List.getD_cons_succ] using hx, hj⟩

/-- Membership in a canonical encoding, backward direction. -/
theorem refPairs_mem_of : ∀ (fields : List SField) (m : StructVal) (i : Nat) (x : PrimVal),
    i < fields.length → i < m.length → m.getD i none = some x →
    ((fields.getD i dummyField).name, encodePrim x) ∈ refPairs fields m
  | [], _, i, _ => by simp
  | _ :: fs, [], i, _ => by simp
  | f :: fs, o :: os, 0, x => by
    intro _ _ hx
    rw [List.getD_cons_zero] at hx
    subst hx
    simp [refPairs, List.getD_cons_zero]
  | f :: fs, o :: os, i + 1, x => by
    intro h1 h2 hx
    rw [List.getD_cons_succ] at hx
    rw [List.getD_cons_succ]
    have hmem := refPairs_mem_of fs os i x (by simpa using Nat.lt_of_succ_lt_succ h1)
      (by simpa using Nat.lt_of_succ_lt_succ h2) hx
    cases o with
    | none => exact hmem
    | some y => exact List.mem_cons.mpr (Or.inr hmem)

theorem getD_map (g : α → β) : ∀ (l : List α) (i : Nat), i < l.length →
    ∀ (d : α) (d2 : β), (l.map g).getD i d2 = g (l.getD i d)
  | [], i, hi => by simp at hi
  | a :: t, 0, _ => by simp [List.getD_cons_zero]
  | a :: t, i + 1, hi => by
    intro d d2
    simp only [List.map_cons, List.getD_cons_succ]
    exact getD_map g t i (by simpa using Nat.lt_of_succ_lt_succ hi) d d2

/-- Decoding a canonically encoded, type-correct map records exactly the
present fields. -/
theorem readFields_refPairs (S : Strukt) (hn : (S.fields.map SField.name).Nodup)
    (m : StructVal) (hlen : m.length = S.fields.length)
    (hty : ∀ i x, i < S.fields.length → m.getD i none = some x →
      x.matchesPrim (S.fields.getD i dummyField).p = true) :
    readFields S.fields (refPairs S.fields m) (S.fields.map fun _ => none)
      = .ok (m.map (Option.map some)) := by
  have hkeys : ((refPairs S.fields m).map Prod.fst).Nodup :=
    (refPairs_keys_sublist S.fields m).nodup hn
  obtain ⟨acc2, hrun, hlen2, hC1, hC2⟩ :=
    readFields_benign S.fields hn (refPairs S.fields m) (S.fields.map fun _ => none)
      (by simp) hkeys
      (by
        intro k j hmem _
        obtain ⟨i, hi1, hi2, hnm, x, hx, hj⟩ := refPairs_mem S.fields m k j hmem
        refine ⟨⟨some x, ?_⟩, initAcc_getD S.fields _⟩
        have hidx : (S.fields.findIdx fun f => f.name == k) = i := by
          rw [← hnm]
          exact findIdx_name_self S.fields hn i hi1
        rw [hidx, hj]
        exact parseFieldVal_encode _ x (hty i x hi1 hx))
  rw [hrun]
  congr 1
  apply ext_getD (none : Rec) acc2 (m.map (Option.map some))
  · rw [hlen2]
    simp [hlen]
  · intro i hi
    have hif : i < S.fields.length := by
      rw [hlen2] at hi
      simpa using hi
    have him : i < m.length := by rw [hlen]; exact hif
    cases hx : m.getD i none with
    | some x =>
      rw [hC2 i (encodePrim x) (some x) hif (refPairs_mem_of S.fields m i x hif him hx)
        (parseFieldVal_encode _ x (hty i x hif hx))]
      rw [getD_map (Option.map some) m i him none none, hx]
      rfl
    | none =>
      have hnotin : (S.fields.getD i dummyField).name ∉ (refPairs S.fields m).map Prod.fst := by
        intro hmem
        obtain ⟨⟨k2, j2⟩, hmem2, hk2⟩ := List.mem_map.mp hmem
        obtain ⟨i2, hi21, hi22, hnm2, x2, hx2, _⟩ := refPairs_mem S.fields m k2 j2 hmem2
        have : i2 = i := by
          apply name_index_inj S.fields hn i2 i hi21 hif
          rw [hnm2]
          exact hk2.symm ▸ rfl
        rw [this] at hx2
        rw [hx2] at hx
        exact Option.noConfusion hx
      rw [hC1 i hif hnotin, initAcc_getD, getD_map (Option.map some) m i him none none, hx]
      rfl

/-! ## The resolution stage -/

theorem resolveField_rec_some (f : SField) (x : PrimVal) :
    resolveField f (some (some x)) = .ok (some x) := by
  unfold resolveField
  by_cases hf : f.nullable
  · simp [hf, Option.join]
  · cases f.dflt <;> simp [hf, Option.join]

theorem resolveField_none_nullable (f : SField) (h : f.nullable = true) :
    resolveField f none = .ok none := by
  simp [resolveField, h, Option.join]

theorem resolveField_none_default (f : SField) (d : PrimVal) (h1 : f.nullable = false)
    (h2 : f.dflt = some d) : resolveField f none = .ok (some d) := by
  simp [resolveField, h1, h2, Option.join]

theorem resolveField_none_required (f : SField) (h1 : f.nullable = false)
    (h2 : f.dflt = none) : resolveField f none = .error (.missingField f.name) := by
  simp [resolveField, h1, h2, Option.join]

/-- `resolveField` only fails on a required field with an empty slot, and the
error names that field. -/
theorem resolveField_error (f : SField) (r : Rec) (e : DecErr)
    (h : resolveField f r = .error e) :
    e = .missingField f.name ∧ f.required = true ∧ r.join = none := by
  unfold resolveField at h
  split at h
  · exact absurd h (by simp)
  · rename_i hnn
    split at h
    · exact absurd h (by simp)
    · rename_i hd
      split at h
      · exact absurd h (by simp)
      · rename_i hj
        have hb : f.nullable = false := by simpa using hnn
        exact ⟨(Except.error.inj h).symm, by simp [SField.required, hb, hd], hj⟩

/-- Resolution of a recorded-from-mask accumulator: present fields resolve to
their values, absent non-required fields resolve to `none`/the default. -/
theorem resolveAll_mapped : ∀ (fields : List SField) (m : StructVal),
    (∀ fr ∈ fields.zip m, fr.2 = none → fr.1.required = false) →
    resolveAll (fields.zip (m.map (Option.map some)))
      = .ok ((fields.zip m).map fun fr =>
          match fr.2 with
          | some x => some x
          | none => resolveMissing fr.1)
  | [], m, _ => by cases m <;> rfl
  | _ :: _, [], _ => rfl
  | f :: fs, o :: os, hreq => by
    have ihr := resolveAll_mapped fs os fun fr hmem h2 =>
      hreq fr (by simp [List.zip_cons_cons, hmem]) h2
    cases o with
    | some x =>
      simp only [List.map_cons, List.zip_cons_cons, Option.map]
      rw [resolveAll]
      rw [resolveField_rec_some f x, ihr]
      rfl
    | none =>
      have hnr : f.required = false := hreq (f, none) (by simp [List.zip_cons_cons]) rfl
      simp only [List.map_cons, List.zip_cons_cons, Option.map]
      rw [resolveAll]
      by_cases hf : f.nullable
      · rw [resolveField_none_nullable f hf, ihr]
        simp only [bind, Except.bind]
        simp [resolveMissing, hf]
      · have hd : ∃ d, f.dflt = some d := by
          simp [SField.required, hf] at hnr
          cases hdd : f.dflt with
          | none => rw [hdd] at hnr; simp [Option.isNone] at hnr
          | some d => exact ⟨d, rfl⟩
        obtain ⟨d, hd⟩ := hd
        rw [resolveField_none_default f d (by simp [hf]) hd, ihr]
        simp only [bind, Except.bind]
        simp [resolveMissing, hf, hd]

/-! ## Zip indexing bridges -/

theorem mem_zip_getD (d1 : α) (d2 : β) : ∀ (l1 : List α) (l2 : List β) (fr : α × β),
    fr ∈ l1.zip l2 → ∃ i, i < l1.length ∧ i < l2.length ∧
      l1.getD i d1 = fr.1 ∧ l2.getD i d2 = fr.2
  | [], l2, fr => by simp
  | _ :: _, [], fr => by simp
  | a :: t1, b :: t2, fr => by
    intro hmem
    rcases List.mem_cons.mp (by simpa [List.zip_cons_cons] using hmem) with hhead | hrest
    · exact ⟨0, by simp, by simp, by rw [List.getD_cons_zero, hhead],
        by rw [List.getD_cons_zero, hhead]⟩
    · obtain ⟨i, hi1, hi2, he1, he2⟩ := mem_zip_getD d1 d2 t1 t2 fr hrest
      exact ⟨i + 1, by simpa using Nat.succ_lt_succ hi1, by simpa using Nat.succ_lt_succ hi2,
        by simpa [List.getD_cons_succ] using he1, by simpa [List.getD_cons_succ] using he2⟩

theorem getD_mem_zip (d1 : α) (d2 : β) : ∀ (l1 : List α) (l2 : List β) (i : Nat),
    i < l1.length → i < l2.length → (l1.getD i d1, l2.getD i d2) ∈ l1.zip l2
  | [], _, i => by simp
  | _ :: _, [], i => by simp
  | a :: t1, b :: t2, 0 => by simp [List.zip_cons_cons, List.getD_cons_zero]
  | a :: t1, b :: t2, i + 1 => by
    intro h1 h2
    rw [List.getD_cons_succ, List.getD_cons_succ]
    exact List.mem_cons.mpr (Or.inr (getD_mem_zip d1 d2 t1 t2 i
      (by simpa using Nat.lt_of_succ_lt_succ h1) (by simpa using Nat.lt_of_succ_lt_succ h2)))

theorem zip_getD (d1 : α) (d2 : β) : ∀ (l1 : List α) (l2 : List β) (i : Nat),
    i < l1.length → i < l2.length →
    (l1.zip l2).getD i (d1, d2) = (l1.getD i d1, l2.getD i d2)
  | [], _, i => by simp
  | _ :: _, [], i => by simp
  | a :: t1, b :: t2, 0 => by simp [List.zip_cons_cons, List.getD_cons_zero]
  | a :: t1, b :: t2, i + 1 => by
    intro h1 h2
    rw [List.zip_cons_cons, List.getD_cons_succ, List.getD_cons_succ, List.getD_cons_succ]
    exact zip_getD d1 d2 t1 t2 i (by simpa using Nat.lt_of_succ_lt_succ h1)
      (by simpa using Nat.lt_of_succ_lt_succ h2)

/-! ## Struct codec master theorems -/

/-- Decoding the canonical encoding of a type-correct value with no missing
required field yields exactly the expected resolution. -/
theorem internal_deserialize_refEncode (S : Strukt) (hn : (S.fields.map SField.name).Nodup)
    (m : StructVal) (hlen : m.length = S.fields.length)
    (hty : ∀ i x, i < S.fields.length → m.getD i none = some x →
      x.matchesPrim (S.fields.getD i dummyField).p = true)
    (hreq : ∀ fr ∈ S.fields.zip m, fr.2 = none → fr.1.required = false) :
    internal_deserialize S (refEncodeStruct S m) = .ok (expectedOf S m) := by
  unfold internal_deserialize
  rw [refEncodeStruct_eq, readFields_refPairs S hn m hlen hty]
  simp only [bind, Except.bind]
  exact resolveAll_mapped S.fields m hreq

/-- Same, through the optional entry point with `optional=true`, on a
non-empty canonical encoding. -/
theorem internal_deserialize_opt_refEncode (S : Strukt)
    (hn : (S.fields.map SField.name).Nodup)
    (m : StructVal) (hlen : m.length = S.fields.length)
    (hty : ∀ i x, i < S.fields.length → m.getD i none = some x →
      x.matchesPrim (S.fields.getD i dummyField).p = true)
    (hreq : ∀ fr ∈ S.fields.zip m, fr.2 = none → fr.1.required = false)
    (hne : refPairs S.fields m ≠ []) :
    internal_deserialize_opt S true (refEncodeStruct S m) = .ok (some (expectedOf S m)) := by
  unfold internal_deserialize_opt
  rw [refEncodeStruct_eq, readFields_refPairs S hn m hlen hty]
  simp only [bind, Except.bind]
  have hie : (refPairs S.fields m).isEmpty = false := by
    cases h : refPairs S.fields m with
    | nil => exact absurd h hne
    | cons a t => simp [List.isEmpty]
  rw [hie]
  simp only [Bool.and_false, if_false]
  rw [resolveAll_mapped S.fields m hreq]
  rfl

/-! ## The serializer's per-field guard -/

/-- A false guard means the field has a default; with type-correct value and
default, it moreover means the value equals the default. -/
theorem fieldGuard_false (f : SField) (x : PrimVal) (h : fieldGuard f x = false) :
    ∃ d, f.dflt = some d ∧ (d.matchesPrim f.p = true → x.matchesPrim f.p = true → x = d) := by
  unfold fieldGuard at h
  split at h
  · exact absurd h (by simp)
  · rename_i hd
    refine ⟨.vStr "", hd, fun _ _ => ?_⟩
    cases x with
    | vStr s =>
      have hs : s = "" := by simpa using h
      rw [hs]
    | vBool b => exact absurd h (by simp)
    | vInt n => exact absurd h (by simp)
  · rename_i b hd
    refine ⟨.vBool b, hd, fun _ _ => ?_⟩
    cases x with
    | vBool v =>
      have hv : v = b := by simpa using h
      rw [hv]
    | vStr s => exact absurd h (by simp)
    | vInt n => exact absurd h (by simp)
  · rename_i d c1 c2 hd
    exact ⟨d, hd, fun _ _ => by simpa using h⟩

/-- The guard never writes a value equal to the declared default. -/
theorem fieldGuard_self (f : SField) (d : PrimVal) (hd : f.dflt = some d) :
    fieldGuard f d = false := by
  unfold fieldGuard
  rw [hd]
  cases d with
  | vStr s =>
    rcases eq_or_ne s "" with rfl | hs
    · simp
    · split
      · rename_i hc
        exact Option.noConfusion hc
      · rename_i hc
        exact absurd (PrimVal.vStr.inj (Option.some.inj hc)) hs
      · rename_i b hc
        exact PrimVal.noConfusion (Option.some.inj hc)
      · rename_i hc
        rw [← Option.some.inj hc]
        simp
  | vBool b => simp
  | vInt n => simp

/-- For a type-correct value and default, every one of the three emitted
comparison forms (`!is_empty()`, boolean negation, `!=`) decides exactly
"differs from the declared default". -/
theorem fieldGuard_iff (f : SField) (x d : PrimVal) (hd : f.dflt = some d)
    (hdm : d.matchesPrim f.p = true) (hm : x.matchesPrim f.p = true) :
    fieldGuard f x = true ↔ x ≠ d := by
  constructor
  · intro hg hxd
    rw [hxd, fieldGuard_self f d hd] at hg
    exact Bool.noConfusion hg
  · intro hne
    by_contra hg
    have hg2 : fieldGuard f x = false := by simpa using hg
    obtain ⟨d2, hd2, heq⟩ := fieldGuard_false f x hg2
    rw [hd] at hd2
    have hde : d2 = d := (Option.some.inj hd2).symm
    subst hde
    exact hne (heq hdm hm)

/-! ## Accessors for well-formedness and goodness -/

theorem bool_and_elim {a b : Bool} (h : (a && b) = true) : a = true ∧ b = true := by
  simp only [Bool.and_eq_true] at h
  exact h

theorem wfStruct_nodup (S : Strukt) (h : wfStruct S = true) :
    (S.fields.map SField.name).Nodup := by
  unfold wfStruct at h
  exact of_decide_eq_true (bool_and_elim h).1

theorem wfStruct_fields (S : Strukt) (h : wfStruct S = true) :
    ∀ f ∈ S.fields, wfField f = true := by
  unfold wfStruct at h
  exact List.all_eq_true.mp (bool_and_elim h).2

theorem wfField_dflt_matches (f : SField) (h : wfField f = true) (d : PrimVal)
    (hd : f.dflt = some d) : d.matchesPrim f.p = true := by
  unfold wfField at h
  rw [hd] at h
  exact (bool_and_elim h).2

theorem goodVal_length (S : Strukt) (v : StructVal) (h : goodVal S v = true) :
    v.length = S.fields.length := by
  unfold goodVal at h
  have h1 := (bool_and_elim h).1
  simpa using h1

theorem maskEntry_none (f : SField) : maskEntry f none = none := rfl

/-- One entry of the expected decoded value. -/
def expEntry (f : SField) (fv : Option PrimVal) : Option PrimVal :=
  match fv with
  | some x => some x
  | none => resolveMissing f

theorem expEntry_some (f : SField) (x : PrimVal) : expEntry f (some x) = some x := rfl

theorem expEntry_none (f : SField) : expEntry f none = resolveMissing f := rfl

theorem resolveMissing_nullable (f : SField) (h : f.nullable = true) :
    resolveMissing f = none := by
  simp [resolveMissing, h]

theorem resolveMissing_notnull (f : SField) (h : f.nullable = false) :
    resolveMissing f = f.dflt := by
  simp [resolveMissing, h]

theorem required_false_of_nullable (f : SField) (h : f.nullable = true) :
    f.required = false := by
  simp [SField.required, h]

theorem required_false_of_dflt (f : SField) (d : PrimVal) (h : f.dflt = some d) :
    f.required = false := by
  simp [SField.required, h]

theorem goodVal_entry (S : Strukt) (v : StructVal) (h : goodVal S v = true)
    (i : Nat) (h1 : i < S.fields.length) (h2 : i < v.length) :
    (∀ x, v.getD i none = some x → x.matchesPrim (S.fields.getD i dummyField).p = true)
    ∧ ((S.fields.getD i dummyField).nullable || (v.getD i none).isSome) = true := by
  unfold goodVal at h
  have hall := (bool_and_elim h).2
  have hmem := getD_mem_zip dummyField none S.fields v i h1 h2
  have hent := List.all_eq_true.mp hall _ hmem
  simp only [Bool.and_eq_true] at hent
  refine ⟨fun x hx => ?_, hent.2⟩
  rw [hx] at hent
  exact hent.1

theorem maskedOf_getD : ∀ (fields : List SField) (v : StructVal) (i : Nat),
    i < fields.length → i < v.length →
    (maskedOf fields v).getD i none = maskEntry (fields.getD i dummyField) (v.getD i none)
  | [], _, i => by simp
  | _ :: _, [], i => by simp
  | f :: fs, fv :: os, 0 => by
    intro _ _
    simp [maskedOf, List.getD_cons_zero]
  | f :: fs, fv :: os, i + 1 => by
    intro h1 h2
    show (maskedOf fs os).getD i none = _
    rw [List.getD_cons_succ, List.getD_cons_succ]
    exact maskedOf_getD fs os i (by simpa using Nat.lt_of_succ_lt_succ h1)
      (by simpa using Nat.lt_of_succ_lt_succ h2)

theorem expectedOf_length (S : Strukt) (m : StructVal) :
    (expectedOf S m).length = min S.fields.length m.length := by
  simp [expectedOf]

theorem expectedOf_getD (S : Strukt) (m : StructVal) (i : Nat)
    (h1 : i < S.fields.length) (h2 : i < m.length) :
    (expectedOf S m).getD i none = expEntry (S.fields.getD i dummyField) (m.getD i none) := by
  unfold expectedOf
  rw [getD_map _ (S.fields.zip m) i (by simp; omega) (dummyField, none) none]
  rw [zip_getD dummyField none S.fields m i h1 h2]
  rfl

/-- Decoding what the emitted serializer wrote restores the original value:
default-equal and absent-nullable fields are omitted on the wire and
reconstituted by the deserializer's resolution step. -/
theorem deserialize_serialize (S : Strukt) (hwf : wfStruct S = true) (v : StructVal)
    (hgood : goodVal S v = true) :
    internal_deserialize S (internal_serialize S v) = .ok v := by
  have hn := wfStruct_nodup S hwf
  have hvlen := goodVal_length S v hgood
  have hmlen : (maskedOf S.fields v).length = S.fields.length := by
    rw [maskedOf_length]
    omega
  rw [internal_serialize_eq, serPairs_eq_refPairs_masked, ← refEncodeStruct_eq]
  rw [internal_deserialize_refEncode S hn (maskedOf S.fields v) hmlen ?hty ?hreq]
  case hty =>
    intro i x hi hx
    have hiv : i < v.length := by omega
    rw [maskedOf_getD S.fields v i hi hiv] at hx
    cases hv : v.getD i none with
    | none => rw [hv] at hx; exact absurd hx (by simp [maskEntry])
    | some y =>
      rw [hv] at hx
      simp only [maskEntry] at hx
      have hxy : x = y := by
        by_cases hnl : (S.fields.getD i dummyField).nullable
        · rw [if_pos hnl] at hx
          exact (Option.some.inj hx).symm
        · rw [if_neg hnl] at hx
          by_cases hg : fieldGuard (S.fields.getD i dummyField) y
          · rw [if_pos hg] at hx
            exact (Option.some.inj hx).symm
          · rw [if_neg hg] at hx
            exact absurd hx (by simp)
      rw [hxy]
      exact (goodVal_entry S v hgood i hi hiv).1 y hv
  case hreq =>
    intro fr hmem hfr
    obtain ⟨i, hi1, hi2, he1, he2⟩ := mem_zip_getD dummyField none S.fields (maskedOf S.fields v)
      fr hmem
    have hiv : i < v.length := by
      rw [maskedOf_length] at hi2
      omega
    rw [hfr] at he2
    rw [maskedOf_getD S.fields v i hi1 hiv] at he2
    rw [← he1]
    cases hv : v.getD i none with
    | none =>
      have hsome := (goodVal_entry S v hgood i hi1 hiv).2
      rw [hv] at hsome
      simp only [Option.isSome_none, Bool.or_false] at hsome
      exact required_false_of_nullable _ hsome
    | some y =>
      rw [hv] at he2
      simp only [maskEntry] at he2
      by_cases hnl : (S.fields.getD i dummyField).nullable
      · rw [if_pos hnl] at he2
        exact absurd he2 (by simp)
      · rw [if_neg hnl] at he2
        by_cases hg : fieldGuard (S.fields.getD i dummyField) y
        · rw [if_pos hg] at he2
          exact absurd he2 (by simp)
        · obtain ⟨d, hd, _⟩ := fieldGuard_false (S.fields.getD i dummyField) y
            (by simp only [Bool.not_eq_true] at hg; exact hg)
          exact required_false_of_dflt _ d hd
  congr 1
  apply ext_getD (none : Option PrimVal)
  · rw [expectedOf_length, hmlen, hvlen]
    simp
  · intro i hi
    have hif : i < S.fields.length := by
      rw [expectedOf_length, hmlen] at hi
      simpa using hi
    have hiv : i < v.length := by omega
    have him : i < (maskedOf S.fields v).length := by omega
    rw [expectedOf_getD S (maskedOf S.fields v) i hif him]
    rw [maskedOf_getD S.fields v i hif hiv]
    have hfmem : S.fields.getD i dummyField ∈ S.fields := getD_mem S.fields dummyField hif
    cases hv : v.getD i none with
    | none =>
      have hsome := (goodVal_entry S v hgood i hif hiv).2
      rw [hv] at hsome
      simp only [Option.isSome_none, Bool.or_false] at hsome
      rw [maskEntry_none, expEntry_none, resolveMissing_nullable _ hsome]
    | some y =>
      simp only [maskEntry]
      by_cases hnl : (S.fields.getD i dummyField).nullable
      · rw [if_pos hnl, expEntry_some]
      · rw [if_neg hnl]
        by_cases hg : fieldGuard (S.fields.getD i dummyField) y
        · rw [if_pos hg, expEntry_some]
        · rw [if_neg hg, expEntry_none,
            resolveMissing_notnull _ (by simp only [Bool.not_eq_true] at hnl; exact hnl)]
          obtain ⟨d, hd, heq⟩ := fieldGuard_false (S.fields.getD i dummyField) y
            (by simp only [Bool.not_eq_true] at hg; exact hg)
          have hyd : y = d :=
            heq (wfField_dflt_matches _ (wfStruct_fields S hwf _ hfmem) d hd)
              ((goodVal_entry S v hgood i hif hiv).1 y hv)
          rw [hd, hyd]

/-! ## Synthesized struct values -/

theorem synthPrim_matches (p : Prim) : (synthPrim p).matchesPrim p = true := by
  cases p <;> rfl

/-- Characterization of both synthesized values of a struct: absent entries
are optional fields, present entries hold the synthesized leaf value. -/
theorem synth_spec (S : Strukt) (sv : StructVal) (hsv : sv ∈ structTestValues S) :
    sv.length = S.fields.length ∧
    ∀ i, i < S.fields.length →
      (sv.getD i none = none → ((S.fields.getD i dummyField).nullable
          || (S.fields.getD i dummyField).dflt.isSome) = true) ∧
      (∀ x, sv.getD i none = some x → x = synthPrim (S.fields.getD i dummyField).p) := by
  have hcases : sv = synthFull S ∨ sv = synthReqOnly S := by
    unfold structTestValues at hsv
    by_cases h : S.allOptionalFields.isEmpty <;> simp [h] at hsv <;> tauto
  rcases hcases with rfl | rfl
  · refine ⟨by simp [synthFull], fun i hi => ?_⟩
    have hg : (synthFull S).getD i none = some (synthPrim (S.fields.getD i dummyField).p) := by
      unfold synthFull
      rw [getD_map _ S.fields i hi dummyField none]
    refine ⟨fun habs => absurd (hg ▸ habs) (by simp), fun x hx => ?_⟩
    rw [hg] at hx
    exact (Option.some.inj hx).symm
  · refine ⟨by simp [synthReqOnly], fun i hi => ?_⟩
    have hg : (synthReqOnly S).getD i none =
        (if (S.fields.getD i dummyField).nullable || (S.fields.getD i dummyField).dflt.isSome
         then none else some (synthPrim (S.fields.getD i dummyField).p)) := by
      unfold synthReqOnly
      rw [getD_map _ S.fields i hi dummyField none]
    by_cases hc : ((S.fields.getD i dummyField).nullable
        || (S.fields.getD i dummyField).dflt.isSome) = true
    · rw [hc] at hg
      refine ⟨fun _ => hc, fun x hx => ?_⟩
      rw [hg] at hx
      exact absurd hx (by simp)
    · rw [if_neg hc] at hg
      refine ⟨fun habs => absurd (hg ▸ habs) (by simp), fun x hx => ?_⟩
      rw [hg] at hx
      exact (Option.some.inj hx).symm

theorem required_false_of_optional (f : SField) (h : (f.nullable || f.dflt.isSome) = true) :
    f.required = false := by
  rcases Bool.or_eq_true_iff.mp h with hn | hs
  · exact required_false_of_nullable f hn
  · obtain ⟨d, hd⟩ := Option.isSome_iff_exists.mp hs
    exact required_false_of_dflt f d hd

/-- Decoding the reference encoding of a synthesized struct value yields the
expected (assert-checked) value. -/
theorem struct_test_decode (S : Strukt) (hwf : wfStruct S = true) (sv : StructVal)
    (hsv : sv ∈ structTestValues S) :
    internal_deserialize S (refEncodeStruct S sv) = .ok (expectedOf S sv) := by
  obtain ⟨hlen, hspec⟩ := synth_spec S sv hsv
  apply internal_deserialize_refEncode S (wfStruct_nodup S hwf) sv hlen
  · intro i x hi hx
    rw [(hspec i hi).2 x hx]
    exact synthPrim_matches _
  · intro fr hmem hfr
    obtain ⟨i, hi1, _, he1, he2⟩ := mem_zip_getD dummyField none S.fields sv fr hmem
    rw [← he1]
    exact required_false_of_optional _ ((hspec i hi1).1 (by rw [he2, hfr]))

theorem goodVal_intro (S : Strukt) (v : StructVal) (hl : v.length = S.fields.length)
    (h : ∀ i, i < S.fields.length →
      (∀ x, v.getD i none = some x → x.matchesPrim (S.fields.getD i dummyField).p = true)
      ∧ ((S.fields.getD i dummyField).nullable || (v.getD i none).isSome) = true) :
    goodVal S v = true := by
  unfold goodVal
  rw [Bool.and_eq_true]
  constructor
  · simp [hl]
  · apply List.all_eq_true.mpr
    intro fr hmem
    obtain ⟨i, hi1, hi2, he1, he2⟩ := mem_zip_getD dummyField none S.fields v fr hmem
    rw [Bool.and_eq_true]
    constructor
    · rw [← he2]
      cases hv : v.getD i none with
      | none => simp
      | some x =>
        have := (h i hi1).1 x hv
        rw [he1] at this
        simpa using this
    · rw [← he1, ← he2]
      exact (h i hi1).2

/-- The expected decoded value of a synthesized struct value is a good value
of the struct. -/
theorem struct_test_good (S : Strukt) (hwf : wfStruct S = true) (sv : StructVal)
    (hsv : sv ∈ structTestValues S) : goodVal S (expectedOf S sv) = true := by
  obtain ⟨hlen, hspec⟩ := synth_spec S sv hsv
  apply goodVal_intro S (expectedOf S sv)
    (by rw [expectedOf_length, hlen]; simp)
  intro i hi
  have hiv : i < sv.length := by omega
  have hfw : wfField (S.fields.getD i dummyField) = true :=
    wfStruct_fields S hwf _ (getD_mem S.fields dummyField hi)
  rw [expectedOf_getD S sv i hi hiv]
  cases hv : sv.getD i none with
  | some y =>
    rw [expEntry_some]
    refine ⟨fun x hx => ?_, by simp⟩
    rw [← Option.some.inj hx, (hspec i hi).2 y hv]
    exact synthPrim_matches _
  | none =>
    rw [expEntry_none]
    have hopt := (hspec i hi).1 hv
    by_cases hnl : (S.fields.getD i dummyField).nullable
    · rw [resolveMissing_nullable _ hnl]
      exact ⟨fun x hx => absurd hx (by simp), by rw [hnl]; rfl⟩
    · have hnl2 : (S.fields.getD i dummyField).nullable = false := by
        simp only [Bool.not_eq_true] at hnl
        exact hnl
      rw [resolveMissing_notnull _ hnl2]
      have hds : (S.fields.getD i dummyField).dflt.isSome = true := by
        rcases Bool.or_eq_true_iff.mp hopt with hn | hs
        · exact absurd hn (by rw [hnl2]; simp)
        · exact hs
      obtain ⟨d, hd⟩ := Option.isSome_iff_exists.mp hds
      rw [hd]
      exact ⟨fun x hx => by
          rw [← Option.some.inj hx]
          exact wfField_dflt_matches _ hfw d hd,
        by simp⟩

/-- Claim C1's struct half, as a reusable lemma: decode the reference
encoding, compare with the expected value, then re-encode and decode again. -/
theorem struct_roundtrip (S : Strukt) (hwf : wfStruct S = true) (sv : StructVal)
    (hsv : sv ∈ structTestValues S) :
    internal_deserialize S (refEncodeStruct S sv) = .ok (expectedOf S sv)
    ∧ internal_deserialize S (internal_serialize S (expectedOf S sv)) = .ok (expectedOf S sv) :=
  ⟨struct_test_decode S hwf sv hsv,
    deserialize_serialize S hwf (expectedOf S sv) (struct_test_good S hwf sv hsv)⟩

/-! ## Union codec lemmas -/

theorem wfUnion_nodup (U : SUnion) (h : wfUnion U = true) :
    (U.variants.map UVariant.name).Nodup := by
  unfold wfUnion at h
  exact of_decide_eq_true (bool_and_elim (bool_and_elim h).1).1

theorem wfUnion_payload (U : SUnion) (h : wfUnion U = true) :
    ∀ v ∈ U.variants, wfPayload v.payload = true := by
  unfold wfUnion at h
  intro v hv
  exact (bool_and_elim
    (List.all_eq_true.mp (bool_and_elim (bool_and_elim h).1).2 v hv)).1

theorem wfUnion_closed_nocatch (U : SUnion) (h : wfUnion U = true) (hc : U.closed = true) :
    ∀ v ∈ U.variants, v.catchAll = false := by
  unfold wfUnion at h
  intro v hv
  have h2 := (bool_and_elim h).2
  rw [hc] at h2
  simp only [Bool.not_true, Bool.false_or] at h2
  have := List.all_eq_true.mp h2 v hv
  simpa using this

theorem wfPayload_strukt (S : Strukt) (h : wfPayload (.strukt S) = true) :
    wfStruct S = true := h

theorem wfPayload_nstrukt (S : Strukt) (h : wfPayload (.nstrukt S) = true) :
    wfStruct S = true ∧ S.allRequiredFields ≠ [] := by
  have h2 := bool_and_elim h
  refine ⟨h2.1, ?_⟩
  have := h2.2
  simpa using this

/-- With distinct variant names, dispatching on the tag of a declared
non-catch-all variant finds exactly that variant. -/
theorem find_filter_name : ∀ (l : List UVariant), (l.map UVariant.name).Nodup →
    ∀ v ∈ l, v.catchAll = false →
    (l.filter fun w => !w.catchAll).find? (fun w => w.name == v.name) = some v
  | [], _, v, hv, _ => absurd hv (by simp)
  | a :: t, hn, v, hv, hca => by
    have hn2 : a.name ∉ t.map UVariant.name ∧ (t.map UVariant.name).Nodup := by
      rw [List.map_cons] at hn
      exact List.nodup_cons.mp hn
    rcases List.mem_cons.mp hv with rfl | hvt
    · rw [List.filter_cons]
      simp only [hca, Bool.not_false, if_true]
      rw [List.find?_cons]
      simp
    · by_cases hac : a.catchAll
      · rw [List.filter_cons]
        simp only [hac, Bool.not_true, if_false]
        exact find_filter_name t hn2.2 v hvt hca
      · have hab : a.catchAll = false := by
          simp only [Bool.not_eq_true] at hac
          exact hac
        rw [List.filter_cons]
        simp only [hab, Bool.not_false, if_true]
        rw [List.find?_cons]
        have hne : (a.name == v.name) = false := by
          apply beq_false_of_ne
          intro he
          exact hn2.1 (he ▸ List.mem_map.mpr ⟨v, hvt, rfl⟩)
        rw [hne]
        exact find_filter_name t hn2.2 v hvt hca

/-- A fully-open union consists of its single catch-all variant only. -/
theorem fullyOpen_false_of_mem (U : SUnion) (v : UVariant) (hv : v ∈ U.variants)
    (hca : v.catchAll = false) : fullyOpen U = false := by
  unfold fullyOpen
  cases hu : U.variants with
  | nil => rfl
  | cons a t =>
    cases t with
    | nil =>
      rw [hu] at hv
      rcases List.mem_cons.mp hv with rfl | habs
      · exact hca
      · exact absurd habs (by simp)
    | cons b t2 => rfl

theorem expectedOf_full (S : Strukt) : expectedOf S (synthFull S) = synthFull S := by
  unfold expectedOf synthFull
  generalize S.fields = fields
  induction fields with
  | nil => rfl
  | cons f fs ih => simpa [List.zip_cons_cons] using ih

theorem synthFull_mem (S : Strukt) : synthFull S ∈ structTestValues S := by
  unfold structTestValues
  by_cases h : S.allOptionalFields.isEmpty <;> simp [h]

theorem goodVal_synthFull (S : Strukt) (hwf : wfStruct S = true) :
    goodVal S (synthFull S) = true := by
  have := struct_test_good S hwf (synthFull S) (synthFull_mem S)
  rwa [expectedOf_full] at this

theorem refPairs_synthFull_ne (S : Strukt) (hne : S.fields ≠ []) :
    refPairs S.fields (synthFull S) ≠ [] := by
  unfold synthFull
  cases h : S.fields with
  | nil => exact absurd h hne
  | cons f fs => simp [refPairs]

/-- A struct with a required field serializes a fully synthesized value to a
non-empty wire object (the required field is always written). -/
theorem serPairs_synth_ne : ∀ (fields : List SField),
    (∃ f ∈ fields, f.required = true) →
    serPairs fields (fields.map fun f => some (synthPrim f.p)) ≠ []
  | [], h => by simp at h
  | f :: fs, h => by
    obtain ⟨g, hg, hgr⟩ := h
    show serializeField f (some (synthPrim f.p)) ++
      serPairs fs (fs.map fun f2 => some (synthPrim f2.p)) ≠ []
    rcases List.mem_cons.mp hg with rfl | hgt
    · have hreq := bool_and_elim hgr
      have hnl : g.nullable = false := by simpa using hreq.1
      have hdn : g.dflt = none := by
        cases hd : g.dflt with
        | none => rfl
        | some d => rw [hd] at hreq; simp [Option.isNone] at hreq
      unfold serializeField
      rw [hnl]
      simp only [Bool.false_eq_true, if_false]
      unfold fieldGuard
      rw [hdn]
      simp
    · have := serPairs_synth_ne fs ⟨g, hgt, hgr⟩
      simp only [ne_eq, List.append_eq_nil]
      intro hand
      exact this hand.2

theorem internal_serialize_synthFull_ne (S : Strukt) (hreq : S.allRequiredFields ≠ []) :
    internal_serialize S (synthFull S) ≠ [] := by
  rw [internal_serialize_eq]
  apply serPairs_synth_ne
  unfold Strukt.allRequiredFields at hreq
  cases h : S.fields.filter SField.required with
  | nil => exact absurd h hreq
  | cons f fs =>
    have : f ∈ S.fields.filter SField.required := by rw [h]; simp
    have hmem := List.mem_filter.mp this
    exact ⟨f, hmem.1, hmem.2⟩

/-- The optional deserializer entry point on a non-empty map behaves as the
plain one wrapped in `some`. -/
theorem internal_deserialize_opt_ne (S : Strukt) (kvs : KVs) (hne : kvs ≠ []) :
    internal_deserialize_opt S true kvs = (internal_deserialize S kvs).map some := by
  unfold internal_deserialize_opt internal_deserialize
  have hie : kvs.isEmpty = false := by
    cases kvs with
    | nil => exact absurd rfl hne
    | cons a t => rfl
  cases hr : readFields S.fields kvs (S.fields.map fun _ => none) with
  | error e => rfl
  | ok acc =>
    simp only [bind, Except.bind, hie, Bool.and_false, if_false]
    rfl

theorem fields_ne_of_required (S : Strukt) (h : S.allRequiredFields ≠ []) :
    S.fields ≠ [] := by
  intro habs
  apply h
  unfold Strukt.allRequiredFields
  rw [habs]
  rfl

/-- Decoding the reference encoding of a synthesized union value yields that
value. -/
theorem union_test_decode (U : SUnion) (hwf : wfUnion U = true)
    (v : UVariant) (hv : v ∈ U.variants) (hca : v.catchAll = false) :
    decodeUnion U (refEncodeUnion v) = .ok (unionTestValue v) := by
  have hfo := fullyOpen_false_of_mem U v hv hca
  have hfind := find_filter_name U.variants (wfUnion_nodup U hwf) v hv hca
  have hwp := wfUnion_payload U hwf v hv
  cases hp : v.payload with
  | void =>
    unfold refEncodeUnion unionTestValue decodeUnion
    rw [hp]
    simp [hfo, hfind, hp]
  | prim p =>
    unfold refEncodeUnion unionTestValue decodeUnion
    rw [hp]
    simp [hfo, hfind, hp, Except.map, parsePrim_encode (synthPrim p) p (synthPrim_matches p)]
  | nprim p =>
    unfold refEncodeUnion unionTestValue decodeUnion
    rw [hp]
    simp [hfo, hfind, hp, Except.map, parseNullable_encode p (synthPrim p) (synthPrim_matches p)]
  | strukt S =>
    rw [hp] at hwp
    have hdec := struct_test_decode S (wfPayload_strukt S hwp) (synthFull S) (synthFull_mem S)
    rw [expectedOf_full] at hdec
    unfold refEncodeUnion unionTestValue decodeUnion
    rw [hp]
    simp [hfo, hfind, hp, Except.map, hdec]
  | nstrukt S =>
    rw [hp] at hwp
    obtain ⟨hS, hSr⟩ := wfPayload_nstrukt S hwp
    have hdec := struct_test_decode S hS (synthFull S) (synthFull_mem S)
    rw [expectedOf_full] at hdec
    have hne : refEncodeStruct S (synthFull S) ≠ [] := by
      rw [refEncodeStruct_eq]
      exact refPairs_synthFull_ne S (fields_ne_of_required S hSr)
    have hopt := internal_deserialize_opt_ne S (refEncodeStruct S (synthFull S)) hne
    unfold refEncodeUnion unionTestValue decodeUnion
    rw [hp]
    simp [hfo, hfind, hp, Except.map, hopt, hdec]

/-- Re-encoding a decoded synthesized union value with the emitted serializer
and decoding again restores it. -/
theorem union_test_encode (U : SUnion) (hwf : wfUnion U = true)
    (v : UVariant) (hv : v ∈ U.variants) (hca : v.catchAll = false) :
    ∃ kvs2, encodeUnion U (unionTestValue v) = .ok kvs2
      ∧ decodeUnion U kvs2 = .ok (unionTestValue v) := by
  have hfo := fullyOpen_false_of_mem U v hv hca
  have hfind := find_filter_name U.variants (wfUnion_nodup U hwf) v hv hca
  have hwp := wfUnion_payload U hwf v hv
  cases hp : v.payload with
  | void =>
    refine ⟨[(".tag", .jStr v.name)], ?_, ?_⟩
    · unfold encodeUnion unionTestValue
      rw [hp]
      simp [hfo, hfind, hp]
    · unfold decodeUnion unionTestValue
      rw [hp]
      simp [hfo, hfind, hp]
  | prim p =>
    refine ⟨[(".tag", .jStr v.name), (v.name, encodePrim (synthPrim p))], ?_, ?_⟩
    · unfold encodeUnion unionTestValue
      rw [hp]
      simp [hfo, hfind, hp]
    · unfold decodeUnion unionTestValue
      rw [hp]
      simp [hfo, hfind, hp, Except.map, parsePrim_encode (synthPrim p) p (synthPrim_matches p)]
  | nprim p =>
    refine ⟨[(".tag", .jStr v.name), (v.name, encodePrim (synthPrim p))], ?_, ?_⟩
    · unfold encodeUnion unionTestValue
      rw [hp]
      simp [hfo, hfind, hp]
    · unfold decodeUnion unionTestValue
      rw [hp]
      simp [hfo, hfind, hp, Except.map, parseNullable_encode p (synthPrim p) (synthPrim_matches p)]
  | strukt S =>
    rw [hp] at hwp
    have hS := wfPayload_strukt S hwp
    have hdec := deserialize_serialize S hS (synthFull S) (goodVal_synthFull S hS)
    refine ⟨(".tag", Json.jStr v.name) :: internal_serialize S (synthFull S), ?_, ?_⟩
    · unfold encodeUnion unionTestValue
      rw [hp]
      simp [hfo, hfind, hp]
    · unfold decodeUnion unionTestValue
      rw [hp]
      simp [hfo, hfind, hp, Except.map, hdec]
  | nstrukt S =>
    rw [hp] at hwp
    obtain ⟨hS, hSr⟩ := wfPayload_nstrukt S hwp
    have hdec := deserialize_serialize S hS (synthFull S) (goodVal_synthFull S hS)
    have hne := internal_serialize_synthFull_ne S hSr
    have hopt := internal_deserialize_opt_ne S (internal_serialize S (synthFull S)) hne
    refine ⟨(".tag", Json.jStr v.name) :: internal_serialize S (synthFull S), ?_, ?_⟩
    · unfold encodeUnion unionTestValue
      rw [hp]
      simp [hfo, hfind, hp]
    · unfold decodeUnion unionTestValue
      rw [hp]
      simp [hfo, hfind, hp, Except.map, hopt, hdec]

/-! ## Duplicate keys always fail -/

/-- Once a declared field's slot is filled, any later occurrence of its key
makes the loop fail. -/
theorem readFields_dup_seen (fields : List SField) (k : String)
    (hk : fields.findIdx (fun f => f.name == k) < fields.length) :
    ∀ (kvs : KVs) (acc : List Rec),
      acc.length = fields.length →
      (acc.getD (fields.findIdx fun f => f.name == k) none).isSome = true →
      k ∈ kvs.map Prod.fst →
      ∃ e, readFields fields kvs acc = .error e := by
  intro kvs
  induction kvs with
  | nil =>
    intro acc _ _ hmem
    exact absurd hmem (by simp)
  | cons kv rest ih =>
    obtain ⟨k1, j1⟩ := kv
    intro acc hlen hsome hmem
    by_cases hlt1 : fields.findIdx (fun f => f.name == k1) < fields.length
    · by_cases hseen : (acc.getD (fields.findIdx fun f => f.name == k1) none).isSome = true
      · refine ⟨.duplicateField k1, ?_⟩
        rw [readFields]
        simp only [dif_pos hlt1, hseen, if_true]
      · have hne1 : k1 ≠ k := by
          intro he
          rw [he] at hseen
          exact hseen hsome
        have hmem2 : k ∈ rest.map Prod.fst := by
          rcases (by simpa using hmem : k = k1 ∨ k ∈ rest.map Prod.fst) with he | hm
          · exact absurd he.symm hne1
          · exact hm
        rw [readFields]
        simp only [dif_pos hlt1]
        rw [if_neg hseen]
        cases hp : parseFieldVal (fields.get ⟨fields.findIdx fun f => f.name == k1, hlt1⟩) j1 with
        | error e => exact ⟨e, rfl⟩
        | ok w =>
          have hidxne : (fields.findIdx fun f => f.name == k1) ≠
              (fields.findIdx fun f => f.name == k) := by
            intro he
            have h1 := findIdx_pred (fun f => f.name == k1) dummyField fields hlt1
            have h2 := findIdx_pred (fun f => f.name == k) dummyField fields hk
            rw [he] at h1
            exact hne1 ((beq_iff_eq.mp (by simpa using h1)).symm.trans
              (beq_iff_eq.mp (by simpa using h2)))
          apply ih
          · rw [List.length_set]
            exact hlen
          · rw [getD_set_ne acc (some w) none hidxne]
            exact hsome
          · exact hmem2
    · have hne1 : k1 ≠ k := by
        intro he
        rw [he] at hlt1
        exact hlt1 hk
      have hmem2 : k ∈ rest.map Prod.fst := by
        rcases (by simpa using hmem : k = k1 ∨ k ∈ rest.map Prod.fst) with he | hm
        · exact absurd he.symm hne1
        · exact hm
      rw [readFields]
      simp only [dif_neg hlt1]
      exact ih acc hlen hsome hmem2

/-- A declared key occurring at least twice in the map makes the loop fail. -/
theorem readFields_dup (fields : List SField) (k : String)
    (hk : fields.findIdx (fun f => f.name == k) < fields.length) :
    ∀ (kvs : KVs) (acc : List Rec),
      acc.length = fields.length →
      2 ≤ (kvs.map Prod.fst).count k →
      ∃ e, readFields fields kvs acc = .error e := by
  intro kvs
  induction kvs with
  | nil =>
    intro acc _ hc
    simp [List.count_nil] at hc
  | cons kv rest ih =>
    obtain ⟨k1, j1⟩ := kv
    intro acc hlen hc
    by_cases hk1 : k1 = k
    · subst hk1
      by_cases hseen : (acc.getD (fields.findIdx fun f => f.name == k1) none).isSome = true
      · refine ⟨.duplicateField k1, ?_⟩
        rw [readFields]
        simp only [dif_pos hk, hseen, if_true]
      · rw [readFields]
        simp only [dif_pos hk]
        rw [if_neg hseen]
        cases hp : parseFieldVal (fields.get ⟨fields.findIdx fun f => f.name == k1, hk⟩) j1 with
        | error e => exact ⟨e, rfl⟩
        | ok w =>
          have hcr : 1 ≤ (rest.map Prod.fst).count k1 := by
            have hcc : List.count k1 (List.map Prod.fst ((k1, j1) :: rest))
                = List.count k1 (rest.map Prod.fst) + 1 := by
              rw [List.map_cons, List.count_cons]
              simp
            rw [hcc] at hc
            omega
          have hmem : k1 ∈ rest.map Prod.fst := List.count_pos_iff.mp hcr
          apply readFields_dup_seen fields k1 hk rest
          · rw [List.length_set]
            exact hlen
          · rw [getD_set_self acc _ (some w) none (by rw [hlen]; exact hk)]
            rfl
          · exact hmem
    · have hcr : 2 ≤ (rest.map Prod.fst).count k := by
        have hcc : List.count k (List.map Prod.fst ((k1, j1) :: rest))
            = List.count k (rest.map Prod.fst) := by
          rw [List.map_cons, List.count_cons]
          simp [hk1]
        rw [hcc] at hc
        exact hc
      rw [readFields]
      by_cases hlt1 : fields.findIdx (fun f => f.name == k1) < fields.length
      · simp only [dif_pos hlt1]
        by_cases hseen : (acc.getD (fields.findIdx fun f => f.name == k1) none).isSome = true
        · rw [if_pos hseen]
          exact ⟨.duplicateField k1, rfl⟩
        · rw [if_neg hseen]
          cases hp : parseFieldVal (fields.get ⟨fields.findIdx fun f => f.name == k1, hlt1⟩) j1 with
          | error e => exact ⟨e, rfl⟩
          | ok w => exact ih _ (by rw [List.length_set]; exact hlen) hcr
      · simp only [dif_neg hlt1]
        exact ih acc hlen hcr

theorem name_findIdx_lt (fields : List SField) (k : String)
    (hk : k ∈ fields.map SField.name) :
    fields.findIdx (fun f => f.name == k) < fields.length := by
  obtain ⟨f, hf, hfk⟩ := List.mem_map.mp hk
  obtain ⟨i, hi⟩ := List.mem_iff_get.mp hf
  apply findIdx_lt_of_pred (fun f => f.name == k) dummyField fields i.isLt
  rw [getD_eq_get fields dummyField i.isLt]
  cases i
  rw [hi, hfk]
  simp

/-- A wire object repeating a declared field key never decodes successfully. -/
theorem internal_deserialize_dup (S : Strukt) (kvs : KVs) (k : String)
    (hk : k ∈ S.fields.map SField.name) (hc : 2 ≤ (kvs.map Prod.fst).count k) :
    ∃ e, internal_deserialize S kvs = .error e := by
  obtain ⟨e, he⟩ := readFields_dup S.fields k (name_findIdx_lt S.fields k hk) kvs
    (S.fields.map fun _ => none) (by simp) hc
  refine ⟨e, ?_⟩
  unfold internal_deserialize
  rw [he]
  rfl

/-! ## Resolution extraction -/

theorem internal_deserialize_ok_parts (S : Strukt) (kvs : KVs) (v : StructVal)
    (h : internal_deserialize S kvs = .ok v) :
    ∃ acc2, readFields S.fields kvs (S.fields.map fun _ => none) = .ok acc2
      ∧ resolveAll (S.fields.zip acc2) = .ok v := by
  unfold internal_deserialize at h
  cases hr : readFields S.fields kvs (S.fields.map fun _ => none) with
  | error e =>
    rw [hr] at h
    exact absurd h (by simp [bind, Except.bind])
  | ok acc =>
    rw [hr] at h
    exact ⟨acc, rfl, by simpa [bind, Except.bind] using h⟩

/-- A declared field whose key is absent from the map keeps an empty slot. -/
theorem readFields_absent (fields : List SField) (i : Nat) (_hi : i < fields.length) :
    ∀ (kvs : KVs) (acc acc2 : List Rec),
      readFields fields kvs acc = .ok acc2 →
      (fields.getD i dummyField).name ∉ kvs.map Prod.fst →
      acc2.getD i none = acc.getD i none := by
  intro kvs
  induction kvs with
  | nil =>
    intro acc acc2 hrun _
    rw [← Except.ok.inj hrun]
  | cons kv rest ih =>
    obtain ⟨k, j⟩ := kv
    intro acc acc2 hrun hnotin
    have hkne : k ≠ (fields.getD i dummyField).name := by
      intro he
      apply hnotin
      rw [List.map_cons]
      exact List.mem_cons.mpr (Or.inl he.symm)
    have hnotin2 : (fields.getD i dummyField).name ∉ rest.map Prod.fst := by
      intro hm
      apply hnotin
      rw [List.map_cons]
      exact List.mem_cons.mpr (Or.inr hm)
    rw [readFields] at hrun
    by_cases hlt : fields.findIdx (fun f => f.name == k) < fields.length
    · simp only [dif_pos hlt] at hrun
      by_cases hseen : (acc.getD (fields.findIdx fun f => f.name == k) none).isSome = true
      · rw [if_pos hseen] at hrun
        exact absurd hrun (by simp)
      · rw [if_neg hseen] at hrun
        cases hp : parseFieldVal (fields.get ⟨fields.findIdx fun f => f.name == k, hlt⟩) j with
        | error e =>
          rw [hp] at hrun
          exact absurd hrun (by simp)
        | ok w =>
          rw [hp] at hrun
          have hidxne : (fields.findIdx fun f => f.name == k) ≠ i := by
            intro he
            apply hkne
            have h1 := findIdx_pred (fun f => f.name == k) dummyField fields hlt
            rw [he] at h1
            exact (beq_iff_eq.mp (by simpa using h1)).symm
          rw [ih _ _ hrun hnotin2]
          exact getD_set_ne acc (some w) none hidxne
    · simp only [dif_neg hlt] at hrun
      exact ih _ _ hrun hnotin2

theorem resolveAll_ok_getD : ∀ (z : List (SField × Rec)) (v : StructVal),
    resolveAll z = .ok v →
    v.length = z.length ∧ ∀ i, i < z.length →
      resolveField (z.getD i (dummyField, none)).1 (z.getD i (dummyField, none)).2
        = .ok (v.getD i none)
  | [], v, h => by
    rw [← Except.ok.inj h]
    exact ⟨rfl, by simp⟩
  | (f, r) :: rest, v, h => by
    rw [resolveAll] at h
    cases hf : resolveField f r with
    | error e =>
      rw [hf] at h
      exact absurd h (by simp [bind, Except.bind])
    | ok v0 =>
      rw [hf] at h
      cases hrest : resolveAll rest with
      | error e =>
        rw [hrest] at h
        exact absurd h (by simp [bind, Except.bind])
      | ok vs =>
        rw [hrest] at h
        have hv : v = v0 :: vs := by
          simp only [bind, Except.bind] at h
          exact (Except.ok.inj h).symm
        subst hv
        obtain ⟨hlen, hptwise⟩ := resolveAll_ok_getD rest vs hrest
        refine ⟨by simp [hlen], fun i hi => ?_⟩
        cases i with
        | zero => simpa [List.getD_cons_zero] using hf
        | succ n =>
          rw [List.getD_cons_succ, List.getD_cons_succ]
          exact hptwise n (by simpa using Nat.lt_of_succ_lt_succ hi)

theorem resolveAll_err : ∀ (z : List (SField × Rec)),
    (∃ fr ∈ z, ∃ e, resolveField fr.1 fr.2 = .error e) →
    ∃ g e, g ∈ z ∧ resolveField g.1 g.2 = .error e ∧ resolveAll z = .error e
  | [], h => by simp at h
  | (f, r) :: rest, h => by
    cases hf : resolveField f r with
    | error e =>
      refine ⟨(f, r), e, by simp, hf, ?_⟩
      rw [resolveAll, hf]
      rfl
    | ok v0 =>
      have hrest : ∃ fr ∈ rest, ∃ e, resolveField fr.1 fr.2 = .error e := by
        obtain ⟨fr, hfr, e, hfe⟩ := h
        rcases List.mem_cons.mp hfr with rfl | hm
        · rw [hf] at hfe
          exact absurd hfe (by simp)
        · exact ⟨fr, hm, e, hfe⟩
      obtain ⟨g, e, hg, hge, hra⟩ := resolveAll_err rest hrest
      refine ⟨g, e, List.mem_cons.mpr (Or.inr hg), hge, ?_⟩
      rw [resolveAll, hf, hra]
      rfl

theorem readFields_length (fields : List SField) : ∀ (kvs : KVs) (acc acc2 : List Rec),
    readFields fields kvs acc = .ok acc2 → acc2.length = acc.length := by
  intro kvs
  induction kvs with
  | nil =>
    intro acc acc2 h
    rw [← Except.ok.inj h]
  | cons kv rest ih =>
    obtain ⟨k, j⟩ := kv
    intro acc acc2 h
    rw [readFields] at h
    by_cases hlt : fields.findIdx (fun f => f.name == k) < fields.length
    · simp only [dif_pos hlt] at h
      by_cases hseen : (acc.getD (fields.findIdx fun f => f.name == k) none).isSome = true
      · rw [if_pos hseen] at h
        exact absurd h (by simp)
      · rw [if_neg hseen] at h
        cases hp : parseFieldVal (fields.get ⟨fields.findIdx fun f => f.name == k, hlt⟩) j with
        | error e =>
          rw [hp] at h
          exact absurd h (by simp)
        | ok w =>
          rw [hp] at h
          rw [ih _ _ h, List.length_set]
    · simp only [dif_neg hlt] at h
      exact ih _ _ h

theorem required_parts (f : SField) (h : f.required = true) :
    f.nullable = false ∧ f.dflt = none := by
  have h2 := bool_and_elim h
  refine ⟨by simpa using h2.1, ?_⟩
  cases hd : f.dflt with
  | none => rfl
  | some d =>
    rw [hd] at h2
    simp [Option.isNone] at h2

theorem parseFieldVal_shape (f : SField) (j : Json) (w : Option PrimVal)
    (hn : f.nullable = false) (h : parseFieldVal f j = .ok w) : w.isSome = true := by
  unfold parseFieldVal at h
  rw [hn] at h
  simp only [Bool.false_eq_true, if_false] at h
  cases hp : parsePrim f.p j with
  | error e =>
    rw [hp] at h
    exact absurd h (by simp [Except.map])
  | ok x =>
    rw [hp] at h
    simp only [Except.map] at h
    rw [← Except.ok.inj h]
    rfl

/-- With distinct names, a declared field whose key occurs in a successfully
consumed map has a filled slot, holding a value for non-nullable fields. -/
theorem readFields_present (fields : List SField) (hn : (fields.map SField.name).Nodup)
    (i : Nat) (hi : i < fields.length) :
    ∀ (kvs : KVs) (acc acc2 : List Rec),
      acc.length = fields.length →
      readFields fields kvs acc = .ok acc2 →
      (fields.getD i dummyField).name ∈ kvs.map Prod.fst →
      (acc.getD i none = none) →
      ∃ w, acc2.getD i none = some w
        ∧ ((fields.getD i dummyField).nullable = false → w.isSome = true) := by
  intro kvs
  induction kvs with
  | nil =>
    intro acc acc2 _ _ hmem
    exact absurd hmem (by simp)
  | cons kv rest ih =>
    obtain ⟨k, j⟩ := kv
    intro acc acc2 hlen hrun hmem hempty
    rw [readFields] at hrun
    by_cases hke : k = (fields.getD i dummyField).name
    · have hidx : (fields.findIdx fun f => f.name == k) = i := by
        rw [hke]
        exact findIdx_name_self fields hn i hi
      have hlt : (fields.findIdx fun f => f.name == k) < fields.length := by
        rw [hidx]
        exact hi
      simp only [dif_pos hlt] at hrun
      have hgetd : fields.get ⟨fields.findIdx fun f => f.name == k, hlt⟩
          = fields.getD i dummyField := by
        rw [← getD_eq_get fields dummyField hlt, hidx]
      by_cases hseen : (acc.getD (fields.findIdx fun f => f.name == k) none).isSome = true
      · rw [hidx, hempty] at hseen
        exact absurd hseen (by simp)
      · rw [if_neg hseen] at hrun
        cases hp : parseFieldVal (fields.get ⟨fields.findIdx fun f => f.name == k, hlt⟩) j with
        | error e =>
          rw [hp] at hrun
          exact absurd hrun (by simp)
        | ok w =>
          rw [hp] at hrun
          have hp2 : parseFieldVal (fields.getD i dummyField) j = .ok w := by
            rw [← hgetd]
            exact hp
          have hshape : (fields.getD i dummyField).nullable = false → w.isSome = true :=
            fun hnul => parseFieldVal_shape _ j w hnul hp2
          rw [hidx] at hrun
          have hrun2 : readFields fields rest (acc.set i (some w)) = Except.ok acc2 := hrun
          by_cases hrest : (fields.getD i dummyField).name ∈ rest.map Prod.fst
          · exfalso
            obtain ⟨e, he⟩ := readFields_dup_seen fields (fields.getD i dummyField).name
              (by rw [findIdx_name_self fields hn i hi]; exact hi)
              rest (acc.set i (some w))
              (by rw [List.length_set]; exact hlen)
              (by rw [findIdx_name_self fields hn i hi,
                    getD_set_self acc i (some w) none (by rw [hlen]; exact hi)]
                  rfl)
              hrest
            rw [he] at hrun2
            exact Except.noConfusion hrun2
          · have habs := readFields_absent fields i hi rest _ _ hrun2 hrest
            rw [getD_set_self acc i (some w) none (by rw [hlen]; exact hi)] at habs
            exact ⟨w, habs, hshape⟩
    · have hmem2 : (fields.getD i dummyField).name ∈ rest.map Prod.fst := by
        rcases (by simpa using hmem :
            (fields.getD i dummyField).name = k ∨
              (fields.getD i dummyField).name ∈ rest.map Prod.fst) with he | hm
        · exact absurd he.symm hke
        · exact hm
      by_cases hlt : fields.findIdx (fun f => f.name == k) < fields.length
      · simp only [dif_pos hlt] at hrun
        by_cases hseen : (acc.getD (fields.findIdx fun f => f.name == k) none).isSome = true
        · rw [if_pos hseen] at hrun
          exact absurd hrun (by simp)
        · rw [if_neg hseen] at hrun
          cases hp : parseFieldVal (fields.get ⟨fields.findIdx fun f => f.name == k, hlt⟩) j with
          | error e =>
            rw [hp] at hrun
            exact absurd hrun (by simp)
          | ok w =>
            rw [hp] at hrun
            have hidxne : (fields.findIdx fun f => f.name == k) ≠ i := by
              intro he
              apply hke
              have h1 := findIdx_pred (fun f => f.name == k) dummyField fields hlt
              rw [he] at h1
              exact (beq_iff_eq.mp (by simpa using h1)).symm
            apply ih _ _ (by rw [List.length_set]; exact hlen) hrun hmem2
            rw [getD_set_ne acc (some w) none hidxne]
            exact hempty
      · simp only [dif_neg hlt] at hrun
        exact ih _ _ hlen hrun hmem2 hempty

/-- The first ambiguous optional-struct variant aborts the per-variant
generation loop with its specific error message. -/
theorem unionVariantChecks_err : ∀ (un : String) (l : List UVariant),
    (∃ v ∈ l, ∃ S, v.catchAll = false ∧ v.payload = .nstrukt S ∧ S.allRequiredFields = []) →
    ∃ w S2, w ∈ l ∧ w.payload = .nstrukt S2 ∧ S2.allRequiredFields = []
      ∧ unionVariantChecks un l = .error
          (un ++ "." ++ w.name ++ ": an optional struct with no required fields is ambiguous")
  | un, [], h => by simp at h
  | un, a :: t, h => by
    by_cases hac : a.catchAll = true
    · have ht : ∃ v ∈ t, ∃ S, v.catchAll = false ∧ v.payload = .nstrukt S
          ∧ S.allRequiredFields = [] := by
        obtain ⟨v, hv, S, hca, hp, hr⟩ := h
        rcases List.mem_cons.mp hv with rfl | hm
        · rw [hac] at hca
          exact absurd hca (by simp)
        · exact ⟨v, hm, S, hca, hp, hr⟩
      obtain ⟨w, S2, hw, hp2, hr2, hrun⟩ := unionVariantChecks_err un t ht
      refine ⟨w, S2, List.mem_cons.mpr (Or.inr hw), hp2, hr2, ?_⟩
      rw [unionVariantChecks, if_pos hac]
      exact hrun
    · have hab : a.catchAll = false := by
        simp only [Bool.not_eq_true] at hac
        exact hac
      cases hpa : a.payload with
      | nstrukt S0 =>
        by_cases hr0 : S0.allRequiredFields.isEmpty = true
        · refine ⟨a, S0, by simp, hpa, ?_, ?_⟩
          · cases hs : S0.allRequiredFields with
            | nil => rfl
            | cons f fs => rw [hs] at hr0; exact absurd hr0 (by simp [List.isEmpty])
          · rw [unionVariantChecks, if_neg (by rw [hab]; simp)]
            rw [hpa]
            simp only [hr0, if_true]
        · have ht : ∃ v ∈ t, ∃ S, v.catchAll = false ∧ v.payload = .nstrukt S
              ∧ S.allRequiredFields = [] := by
            obtain ⟨v, hv, S, hca, hp, hr⟩ := h
            rcases List.mem_cons.mp hv with rfl | hm
            · rw [hpa] at hp
              have : S = S0 := (UPayload.nstrukt.inj hp).symm
              rw [this] at hr
              rw [hr] at hr0
              exact absurd rfl hr0
            · exact ⟨v, hm, S, hca, hp, hr⟩
          obtain ⟨w, S2, hw, hp2, hr2, hrun⟩ := unionVariantChecks_err un t ht
          refine ⟨w, S2, List.mem_cons.mpr (Or.inr hw), hp2, hr2, ?_⟩
          rw [unionVariantChecks, if_neg (by rw [hab]; simp)]
          rw [hpa]
          simp only [hr0, Bool.false_eq_true, if_false]
          exact hrun
      | void =>
        have ht : ∃ v ∈ t, ∃ S, v.catchAll = false ∧ v.payload = .nstrukt S
            ∧ S.allRequiredFields = [] := by
          obtain ⟨v, hv, S, hca, hp, hr⟩ := h
          rcases List.mem_cons.mp hv with rfl | hm
          · rw [hpa] at hp
            exact absurd hp (by simp)
          · exact ⟨v, hm, S, hca, hp, hr⟩
        obtain ⟨w, S2, hw, hp2, hr2, hrun⟩ := unionVariantChecks_err un t ht
        refine ⟨w, S2, List.mem_cons.mpr (Or.inr hw), hp2, hr2, ?_⟩
        rw [unionVariantChecks, if_neg (by rw [hab]; simp)]
        rw [hpa]
        exact hrun
      | prim p =>
        have ht : ∃ v ∈ t, ∃ S, v.catchAll = false ∧ v.payload = .nstrukt S
            ∧ S.allRequiredFields = [] := by
          obtain ⟨v, hv, S, hca, hp, hr⟩ := h
          rcases List.mem_cons.mp hv with rfl | hm
          · rw [hpa] at hp
            exact absurd hp (by simp)
          · exact ⟨v, hm, S, hca, hp, hr⟩
        obtain ⟨w, S2, hw, hp2, hr2, hrun⟩ := unionVariantChecks_err un t ht
        refine ⟨w, S2, List.mem_cons.mpr (Or.inr hw), hp2, hr2, ?_⟩
        rw [unionVariantChecks, if_neg (by rw [hab]; simp)]
        rw [hpa]
        exact hrun
      | nprim p =>
        have ht : ∃ v ∈ t, ∃ S, v.catchAll = false ∧ v.payload = .nstrukt S
            ∧ S.allRequiredFields = [] := by
          obtain ⟨v, hv, S, hca, hp, hr⟩ := h
          rcases List.mem_cons.mp hv with rfl | hm
          · rw [hpa] at hp
            exact absurd hp (by simp)
          · exact ⟨v, hm, S, hca, hp, hr⟩
        obtain ⟨w, S2, hw, hp2, hr2, hrun⟩ := unionVariantChecks_err un t ht
        refine ⟨w, S2, List.mem_cons.mpr (Or.inr hw), hp2, hr2, ?_⟩
        rw [unionVariantChecks, if_neg (by rw [hab]; simp)]
        rw [hpa]
        exact hrun
      | strukt S0 =>
        have ht : ∃ v ∈ t, ∃ S, v.catchAll = false ∧ v.payload = .nstrukt S
            ∧ S.allRequiredFields = [] := by
          obtain ⟨v, hv, S, hca, hp, hr⟩ := h
          rcases List.mem_cons.mp hv with rfl | hm
          · rw [hpa] at hp
            exact absurd hp (by simp)
          · exact ⟨v, hm, S, hca, hp, hr⟩
        obtain ⟨w, S2, hw, hp2, hr2, hrun⟩ := unionVariantChecks_err un t ht
        refine ⟨w, S2, List.mem_cons.mpr (Or.inr hw), hp2, hr2, ?_⟩
        rw [unionVariantChecks, if_neg (by rw [hab]; simp)]
        rw [hpa]
        exact hrun

/-! ## Concrete instances used by the claims -/

/-- The spec's concrete scenario: a required string field `name` and an
optional boolean field `active` with default `false`. -/
def demoNameActive : Strukt :=
  ⟨"Item", [⟨"name", .pStr, false, none⟩, ⟨"active", .pBool, false, some (.vBool false)⟩]⟩

/-- The spec's concrete scenario: a closed union with variants `A` (void) and
`B(int)`. -/
def demoAB : SUnion := ⟨"Op", true, [⟨"A", .void, false⟩, ⟨"B", .prim .pInt, false⟩]⟩

/-- An open union with no defined variants (only the catch-all). -/
def demoOpenEnum : SUnion := ⟨"Tag", false, [⟨"other", .void, true⟩]⟩

/-- A struct with zero required fields (its only field has a default). -/
def demoAllOpt : Strukt := ⟨"AllOpt", [⟨"opt", .pBool, false, some (.vBool false)⟩]⟩

/-- A union with a nullable-struct variant whose struct has no required
fields — the ambiguous case generation must reject. -/
def demoAmbig : SUnion := ⟨"Amb", false, [⟨"x", .nstrukt demoAllOpt, false⟩]⟩

/-- A closed enumerated-subtype struct with one subtype. -/
def demoPoly : PolyStruct := ⟨"Shape", [("item", demoNameActive)], false⟩

/-! ## Claims -/

/-- Claim C1: for every synthesized value of a serializable type in the
modelled fragment (plain structs with their all-fields and required-only
synthesized values; unions with one synthesized value per non-catch-all
variant), decoding the reference codec's JSON with the generated codec yields
exactly the expected value (every leaf equal to the one used to synthesize
it), and re-encoding that decoded value with the generated serializer and
decoding again yields an equal value. -/
theorem claim_C1_round_trip :
    (∀ (S : Strukt), wfStruct S = true → ∀ sv ∈ structTestValues S,
      internal_deserialize S (refEncodeStruct S sv) = .ok (expectedOf S sv)
      ∧ internal_deserialize S (internal_serialize S (expectedOf S sv))
          = .ok (expectedOf S sv))
    ∧ (∀ (U : SUnion), wfUnion U = true → ∀ v ∈ U.variants, v.catchAll = false →
      decodeUnion U (refEncodeUnion v) = .ok (unionTestValue v)
      ∧ ∃ kvs2, encodeUnion U (unionTestValue v) = .ok kvs2
          ∧ decodeUnion U kvs2 = .ok (unionTestValue v)) :=
  ⟨fun S hwf sv hsv => struct_roundtrip S hwf sv hsv,
   fun U hwf v hv hca =>
    ⟨union_test_decode U hwf v hv hca, union_test_encode U hwf v hv hca⟩⟩

theorem claim_C1_round_trip_witness :
    (wfStruct demoNameActive = true
      ∧ synthFull demoNameActive ∈ structTestValues demoNameActive
      ∧ wfUnion demoAB = true)
    ∧ internal_deserialize demoNameActive
        (refEncodeStruct demoNameActive (synthFull demoNameActive))
        = .ok (expectedOf demoNameActive (synthFull demoNameActive))
    ∧ decodeUnion demoAB (refEncodeUnion ⟨"B", .prim .pInt, false⟩)
        = .ok (unionTestValue ⟨"B", .prim .pInt, false⟩) :=
  ⟨⟨by decide, by decide, by decide⟩,
   (claim_C1_round_trip.1 demoNameActive (by decide) (synthFull demoNameActive)
      (by decide)).1,
   (claim_C1_round_trip.2 demoAB (by decide) ⟨"B", .prim .pInt, false⟩
      (by decide) (by decide)).1⟩

/-- Modelled from the spec (claim C2's wording): the serializer writes a
struct field only when the type is nullable and the value present; or the
field has no default; or it has a default and the current value differs from
it (string defaults compare against emptiness — the form emitted for the
empty-string default — boolean defaults against the declared boolean,
everything else by equality; `fieldGuard_iff` shows every emitted comparison
form decides exactly inequality with the declared default). -/
def spec_writes_field (f : SField) (fv : Option PrimVal) : Prop :=
  (f.nullable = true ∧ fv.isSome = true)
  ∨ (f.nullable = false ∧ f.dflt = none)
  ∨ (f.nullable = false ∧ ∃ d x, f.dflt = some d ∧ fv = some x ∧ x ≠ d)

/-- Claim C2: the generated serializer writes a field exactly under the
spec's conditions, and on the concrete `name`/`active` struct encodes
`{name:"x", active:false}` as `{"name":"x"}` and `{name:"x", active:true}`
as `{"name":"x","active":true}`. -/
theorem claim_C2_field_elision :
    (∀ (f : SField) (fv : Option PrimVal),
      wfField f = true →
      (match fv with
       | some x => x.matchesPrim f.p
       | none => true) = true →
      (f.nullable || fv.isSome) = true →
      (serializeField f fv ≠ [] ↔ spec_writes_field f fv))
    ∧ internal_serialize demoNameActive [some (.vStr "x"), some (.vBool false)]
        = [("name", .jStr "x")]
    ∧ internal_serialize demoNameActive [some (.vStr "x"), some (.vBool true)]
        = [("name", .jStr "x"), ("active", .jBool true)] := by
  refine ⟨?_, rfl, rfl⟩
  intro f fv hwf hty hpres
  unfold serializeField spec_writes_field
  by_cases hnl : f.nullable
  · rw [if_pos hnl]
    cases fv with
    | some x =>
      constructor
      · intro _
        exact Or.inl ⟨hnl, rfl⟩
      · intro _
        simp
    | none =>
      constructor
      · intro h
        exact absurd rfl h
      · intro h
        rcases h with ⟨_, hs⟩ | ⟨hn2, _⟩ | ⟨hn2, _⟩
        · exact absurd hs (by simp)
        · rw [hnl] at hn2
          exact Bool.noConfusion hn2
        · rw [hnl] at hn2
          exact Bool.noConfusion hn2
  · have hnl2 : f.nullable = false := by
      simp only [Bool.not_eq_true] at hnl
      exact hnl
    rw [if_neg hnl]
    cases fv with
    | none =>
      rw [hnl2] at hpres
      exact absurd hpres (by simp)
    | some x =>
      show (if fieldGuard f x = true then [(f.name, encodePrim x)] else []) ≠ [] ↔ _
      cases hd : f.dflt with
      | none =>
        have hg : fieldGuard f x = true := by
          unfold fieldGuard
          rw [hd]
        rw [if_pos hg]
        constructor
        · intro _
          exact Or.inr (Or.inl ⟨hnl2, rfl⟩)
        · intro _
          simp
      | some d =>
        have hdm := wfField_dflt_matches f hwf d hd
        have hxm : x.matchesPrim f.p = true := by simpa using hty
        have hiff := fieldGuard_iff f x d hd hdm hxm
        by_cases hg : fieldGuard f x = true
        · rw [if_pos hg]
          constructor
          · intro _
            exact Or.inr (Or.inr ⟨hnl2, d, x, rfl, rfl, hiff.mp hg⟩)
          · intro _
            simp
        · have hg2 : fieldGuard f x = false := by
            simp only [Bool.not_eq_true] at hg
            exact hg
          rw [hg2]
          simp only [Bool.false_eq_true, if_false]
          constructor
          · intro h
            exact absurd rfl h
          · intro h
            rcases h with ⟨hn2, _⟩ | ⟨_, hd2⟩ | ⟨_, d2, x2, hd2, hx2, hne⟩
            · rw [hnl2] at hn2
              exact Bool.noConfusion hn2
            · exact Option.noConfusion hd2
            · have hdd : d2 = d := (Option.some.inj hd2).symm
              have hxx : x2 = x := (Option.some.inj hx2).symm
              have hxd : x = d := by
                by_contra h2
                rw [hiff.mpr h2] at hg2
                exact Bool.noConfusion hg2
              rw [hdd, hxx] at hne
              exact absurd hxd hne

theorem claim_C2_field_elision_witness :
    (wfField ⟨"active", .pBool, false, some (.vBool false)⟩ = true
      ∧ ((PrimVal.vBool true).matchesPrim .pBool) = true)
    ∧ (serializeField ⟨"active", .pBool, false, some (.vBool false)⟩ (some (.vBool true)) ≠ []
        ↔ spec_writes_field ⟨"active", .pBool, false, some (.vBool false)⟩
            (some (.vBool true))) :=
  ⟨⟨by decide, by decide⟩,
   claim_C2_field_elision.1 ⟨"active", .pBool, false, some (.vBool false)⟩
     (some (.vBool true)) (by decide) (by decide) (by decide)⟩

/-- Claim C3: decoding a tagged object whose tag is not among the known
variants yields the catch-all for an open union or enumerated-subtype struct
and a decode error for a closed one; and the concrete closed union `A | B(int)`
behaves as specified on `{".tag":"C"}`, `{".tag":"A"}` and
`{".tag":"B","B":5}`. -/
theorem claim_C3_unknown_tag :
    (∀ (U : SUnion), wfUnion U = true →
      ∀ (tag : String) (rest : KVs),
        (∀ v ∈ U.variants, v.catchAll = false → v.name ≠ tag) →
        decodeUnion U ((".tag", .jStr tag) :: rest)
          = (if U.closed = true then .error (.unknownVariant tag) else .ok .other))
    ∧ (∀ (P : PolyStruct) (tag : String) (rest : KVs),
        (∀ st ∈ P.subtypes, st.1 ≠ tag) →
        decodePolymorphic P ((".tag", .jStr tag) :: rest)
          = (if P.isCatchAll = true then .ok .pother else .error (.unknownVariant tag)))
    ∧ decodeUnion demoAB [(".tag", .jStr "C")] = .error (.unknownVariant "C")
    ∧ decodeUnion demoAB [(".tag", .jStr "A")] = .ok (.variant "A" .pvoid)
    ∧ decodeUnion demoAB [(".tag", .jStr "B"), ("B", .jInt 5)]
        = .ok (.variant "B" (.pprim (.vInt 5))) := by
  refine ⟨?_, ?_, rfl, rfl, rfl⟩
  · intro U hwf tag rest hunk
    unfold decodeUnion
    by_cases hfo : fullyOpen U = true
    · have hclosed : U.closed = false := by
        by_contra hcl
        have hcl2 : U.closed = true := by
          simp only [Bool.not_eq_false] at hcl
          exact hcl
        have hnc := wfUnion_closed_nocatch U hwf hcl2
        unfold fullyOpen at hfo
        cases hu : U.variants with
        | nil =>
          rw [hu] at hfo
          exact Bool.noConfusion hfo
        | cons a t =>
          cases t with
          | nil =>
            rw [hu] at hfo
            have hfo3 : a.catchAll = true := hfo
            have hnca := hnc a (by rw [hu]; simp)
            rw [hnca] at hfo3
            exact Bool.noConfusion hfo3
          | cons b t2 =>
            rw [hu] at hfo
            exact Bool.noConfusion hfo
      simp [hfo, hclosed]
    · have hfo2 : fullyOpen U = false := by
        simp only [Bool.not_eq_true] at hfo
        exact hfo
      have hfind : (U.variants.filter fun v => !v.catchAll).find? (fun v => v.name == tag)
          = none := by
        apply List.find?_eq_none.mpr
        intro x hx
        have hx2 := List.mem_filter.mp hx
        have hcf : x.catchAll = false := by
          have := hx2.2
          simpa using this
        intro hbeq
        exact hunk x hx2.1 hcf (beq_iff_eq.mp (by simpa using hbeq))
      simp [hfo2, hfind]
  · intro P tag rest hunk
    unfold decodePolymorphic
    have hfind : P.subtypes.find? (fun st => st.1 == tag) = none := by
      apply List.find?_eq_none.mpr
      intro x hx hbeq
      exact hunk x hx (beq_iff_eq.mp (by simpa using hbeq))
    simp [hfind]

theorem claim_C3_unknown_tag_witness :
    (wfUnion demoAB = true
      ∧ (∀ v ∈ demoAB.variants, v.catchAll = false → v.name ≠ "X")
      ∧ (∀ st ∈ demoPoly.subtypes, st.1 ≠ "X"))
    ∧ decodeUnion demoAB [(".tag", .jStr "X")]
        = (if demoAB.closed = true then .error (.unknownVariant "X") else .ok .other)
    ∧ decodePolymorphic demoPoly [(".tag", .jStr "X")]
        = (if demoPoly.isCatchAll = true then .ok .pother
           else .error (.unknownVariant "X")) :=
  ⟨⟨by decide, by decide, by decide⟩,
   claim_C3_unknown_tag.1 demoAB (by decide) "X" [] (by decide),
   (claim_C3_unknown_tag.2.1 demoPoly "X" [] (by decide))⟩

/-- Claim C4: a wire object containing the same declared field key twice
always fails to decode; on the concrete `name`/`active` struct a duplicated
`name` key reports `duplicate_field("name")`. -/
theorem claim_C4_duplicate_field :
    (∀ (S : Strukt) (kvs : KVs) (k : String),
      k ∈ S.fields.map SField.name →
      2 ≤ (kvs.map Prod.fst).count k →
      ∃ e, internal_deserialize S kvs = .error e)
    ∧ internal_deserialize demoNameActive [("name", .jStr "x"), ("name", .jStr "y")]
        = .error (.duplicateField "name") :=
  ⟨fun S kvs k hk hc => internal_deserialize_dup S kvs k hk hc, rfl⟩

theorem claim_C4_duplicate_field_witness :
    ("name" ∈ demoNameActive.fields.map SField.name
      ∧ 2 ≤ (([("name", Json.jStr "x"), ("name", Json.jStr "y")].map Prod.fst).count "name"))
    ∧ ∃ e, internal_deserialize demoNameActive
        [("name", .jStr "x"), ("name", .jStr "y")] = .error e :=
  ⟨⟨by decide, by decide⟩,
   claim_C4_duplicate_field.1 demoNameActive
     [("name", .jStr "x"), ("name", .jStr "y")] "name" (by decide) (by decide)⟩

/-- Claim C5: after the loop consumed all keys, a declared field with no
recorded value resolves by priority — nullable to `none`, defaulted to its
default (both shown by the first conjunct: any absent field in a successful
decode resolves to `resolveMissing`), and a required absent field fails the
decode with an error naming a missing required field (second conjunct); the
concrete scenario decodes `{"name":"x"}` with `active == false` and fails on
a missing `name`. -/
theorem claim_C5_missing_resolution :
    (∀ (S : Strukt) (kvs : KVs) (v : StructVal) (i : Nat),
      i < S.fields.length →
      internal_deserialize S kvs = .ok v →
      (S.fields.getD i dummyField).name ∉ kvs.map Prod.fst →
      v.getD i none = resolveMissing (S.fields.getD i dummyField))
    ∧ (∀ (S : Strukt) (kvs : KVs) (i : Nat),
      wfStruct S = true →
      i < S.fields.length →
      (S.fields.getD i dummyField).required = true →
      (S.fields.getD i dummyField).name ∉ kvs.map Prod.fst →
      (∃ acc2, readFields S.fields kvs (S.fields.map fun _ => none) = .ok acc2) →
      ∃ g, g ∈ S.fields ∧ g.required = true ∧ g.name ∉ kvs.map Prod.fst
        ∧ internal_deserialize S kvs = .error (.missingField g.name))
    ∧ internal_deserialize demoNameActive [("name", .jStr "x")]
        = .ok [some (.vStr "x"), some (.vBool false)]
    ∧ internal_deserialize demoNameActive [("active", .jBool true)]
        = .error (.missingField "name") := by
  refine ⟨?_, ?_, rfl, rfl⟩
  · intro S kvs v i hi hok habs
    obtain ⟨acc2, hread, hres⟩ := internal_deserialize_ok_parts S kvs v hok
    have hacc : acc2.getD i none = none := by
      rw [readFields_absent S.fields i hi kvs _ _ hread habs]
      exact initAcc_getD S.fields i
    have hlen2 : acc2.length = S.fields.length := by
      rw [readFields_length S.fields kvs _ _ hread]
      simp
    have hzlen : i < (S.fields.zip acc2).length := by
      rw [List.length_zip]
      omega
    obtain ⟨hvlen, hpt⟩ := resolveAll_ok_getD (S.fields.zip acc2) v hres
    have hthis := hpt i hzlen
    rw [zip_getD dummyField none S.fields acc2 i hi (by omega)] at hthis
    rw [hacc] at hthis
    by_cases hnl : (S.fields.getD i dummyField).nullable
    · rw [resolveField_none_nullable _ hnl] at hthis
      rw [resolveMissing_nullable _ hnl]
      exact (Except.ok.inj hthis).symm
    · have hnl2 : (S.fields.getD i dummyField).nullable = false := by
        simp only [Bool.not_eq_true] at hnl
        exact hnl
      cases hd : (S.fields.getD i dummyField).dflt with
      | some d =>
        rw [resolveField_none_default _ d hnl2 hd] at hthis
        rw [resolveMissing_notnull _ hnl2, hd]
        exact (Except.ok.inj hthis).symm
      | none =>
        rw [resolveField_none_required _ hnl2 hd] at hthis
        exact absurd hthis (by simp)
  · intro S kvs i hwf hi hreq habs hex
    obtain ⟨acc2, hread⟩ := hex
    have hn := wfStruct_nodup S hwf
    have hlen2 : acc2.length = S.fields.length := by
      rw [readFields_length S.fields kvs _ _ hread]
      simp
    have hacc : acc2.getD i none = none := by
      rw [readFields_absent S.fields i hi kvs _ _ hread habs]
      exact initAcc_getD S.fields i
    have hfr : (S.fields.getD i dummyField, (none : Rec)) ∈ S.fields.zip acc2 := by
      have := getD_mem_zip dummyField none S.fields acc2 i hi (by omega)
      rw [hacc] at this
      exact this
    obtain ⟨hnul, hdn⟩ := required_parts _ hreq
    obtain ⟨g, e, hgmem, hge, hra⟩ := resolveAll_err (S.fields.zip acc2)
      ⟨(S.fields.getD i dummyField, none), hfr,
        ⟨.missingField (S.fields.getD i dummyField).name,
          resolveField_none_required _ hnul hdn⟩⟩
    obtain ⟨he1, hgreq, hgjoin⟩ := resolveField_error g.1 g.2 e hge
    obtain ⟨i2, hi21, hi22, hz1, hz2⟩ := mem_zip_getD dummyField none S.fields acc2 g hgmem
    have hgin : g.1 ∈ S.fields := by
      rw [← hz1]
      exact getD_mem S.fields dummyField hi21
    have hgabs : g.1.name ∉ kvs.map Prod.fst := by
      intro hin
      obtain ⟨w, hw, hwsome⟩ := readFields_present S.fields hn i2 hi21 kvs _ _
        (by simp) hread (by rw [hz1]; exact hin) (initAcc_getD S.fields i2)
      rw [hw] at hz2
      rw [← hz2] at hgjoin
      have hg1n : (S.fields.getD i2 dummyField).nullable = false := by
        rw [hz1]
        exact (required_parts _ hgreq).1
      have hsome := hwsome hg1n
      have hjw : (some w : Rec).join = w := rfl
      rw [hjw] at hgjoin
      rw [hgjoin] at hsome
      exact Bool.noConfusion hsome
    refine ⟨g.1, hgin, hgreq, hgabs, ?_⟩
    unfold internal_deserialize
    rw [hread]
    show resolveAll (S.fields.zip acc2) = _
    rw [hra, he1]

theorem claim_C5_missing_resolution_witness :
    (1 < demoNameActive.fields.length
      ∧ internal_deserialize demoNameActive [("name", Json.jStr "x")]
          = .ok [some (.vStr "x"), some (.vBool false)]
      ∧ (demoNameActive.fields.getD 1 dummyField).name ∉
          ([("name", Json.jStr "x")].map Prod.fst))
    ∧ ([some (PrimVal.vStr "x"), some (PrimVal.vBool false)] : StructVal).getD 1 none
        = resolveMissing (demoNameActive.fields.getD 1 dummyField) :=
  ⟨⟨by decide, rfl, by decide⟩,
   claim_C5_missing_resolution.1 demoNameActive [("name", Json.jStr "x")]
     [some (.vStr "x"), some (.vBool false)] 1 (by decide) rfl (by decide)⟩

/-- Claim C6 (corrected): the generator emits the second "optional"
deserializer entry point exactly for structs with at least ONE required
field (`optional = len(struct.all_required_fields) > 0`, rust.stoneg.py
line 413), not for structs with zero required fields as the spec claims;
in optional mode the entry point treats zero keys consumed as full absence
and returns none. -/
theorem claim_C6_opt_entry_point :
    (∀ (S : Strukt), emits_opt_deserializer S = true → 0 < S.allRequiredFields.length)
    ∧ (∀ (S : Strukt), 0 < S.allRequiredFields.length → emits_opt_deserializer S = true)
    ∧ (∀ (S : Strukt), internal_deserialize_opt S true [] = .ok none) := by
  refine ⟨?_, ?_, ?_⟩
  · intro S h
    simpa [emits_opt_deserializer] using h
  · intro S h
    simpa [emits_opt_deserializer] using h
  · intro S
    rfl

theorem claim_C6_opt_entry_point_witness :
    (emits_opt_deserializer demoNameActive = true
      ∧ 0 < demoNameActive.allRequiredFields.length)
    ∧ 0 < demoNameActive.allRequiredFields.length
    ∧ emits_opt_deserializer demoNameActive = true :=
  ⟨⟨by decide, claim_C6_opt_entry_point.1 demoNameActive (by decide)⟩,
   by decide,
   claim_C6_opt_entry_point.2.1 demoNameActive (by decide)⟩

/-- Claim C6, counterexample to the spec's wording: a struct with zero
required fields does NOT get the optional entry point (the generator's
condition is inverted relative to the spec); a struct with a required field
does. -/
theorem claim_C6_counterexample :
    demoAllOpt.allRequiredFields.length = 0
    ∧ emits_opt_deserializer demoAllOpt = false
    ∧ 0 < demoNameActive.allRequiredFields.length
    ∧ emits_opt_deserializer demoNameActive = true := by
  decide

/-- Claim C7: a union whose only field is the catch-all (fully open, no
defined variants) always deserializes to the catch-all whatever the tag, and
always fails to serialize with the exact error
"cannot serialize an open union with no defined variants". -/
theorem claim_C7_fully_open :
    ∀ (U : SUnion), fullyOpen U = true →
      (∀ (tag : String) (rest : KVs),
        decodeUnion U ((".tag", .jStr tag) :: rest) = .ok .other)
      ∧ (∀ uv, encodeUnion U uv
          = .error "cannot serialize an open union with no defined variants") := by
  intro U hfo
  constructor
  · intro tag rest
    unfold decodeUnion
    simp [hfo]
  · intro uv
    unfold encodeUnion
    rw [if_pos hfo]

theorem claim_C7_fully_open_witness :
    fullyOpen demoOpenEnum = true
    ∧ decodeUnion demoOpenEnum [(".tag", .jStr "whatever")] = .ok .other
    ∧ encodeUnion demoOpenEnum (.variant "other" .pvoid)
        = .error "cannot serialize an open union with no defined variants" :=
  ⟨by decide,
   (claim_C7_fully_open demoOpenEnum (by decide)).1 "whatever" [],
   (claim_C7_fully_open demoOpenEnum (by decide)).2 (.variant "other" .pvoid)⟩

/-- Claim C8: a union containing a non-catch-all variant whose payload is a
nullable struct with zero required fields makes generation abort with the
explicit ambiguity error naming the union and the offending field, rather
than emitting a codec. -/
theorem claim_C8_ambiguity_abort :
    ∀ (U : SUnion) (v : UVariant) (S : Strukt),
      v ∈ U.variants → v.catchAll = false → v.payload = .nstrukt S →
      S.allRequiredFields = [] →
      ∃ w S2, w ∈ U.variants ∧ w.payload = .nstrukt S2 ∧ S2.allRequiredFields = []
        ∧ impl_serde_for_union_check U
            = .error (U.name ++ "." ++ w.name
                ++ ": an optional struct with no required fields is ambiguous") := by
  intro U v S hv hca hp hr
  obtain ⟨w, S2, hw, hp2, hr2, hrun⟩ := unionVariantChecks_err U.name U.variants
    ⟨v, hv, S, hca, hp, hr⟩
  refine ⟨w, S2, hw, hp2, hr2, ?_⟩
  unfold impl_serde_for_union_check
  rw [if_neg (by rw [fullyOpen_false_of_mem U v hv hca]; simp)]
  exact hrun

theorem claim_C8_ambiguity_abort_witness :
    ((⟨"x", .nstrukt demoAllOpt, false⟩ : UVariant) ∈ demoAmbig.variants
      ∧ demoAllOpt.allRequiredFields = [])
    ∧ ∃ w S2, w ∈ demoAmbig.variants ∧ w.payload = .nstrukt S2
        ∧ S2.allRequiredFields = []
        ∧ impl_serde_for_union_check demoAmbig
            = .error (demoAmbig.name ++ "." ++ w.name
                ++ ": an optional struct with no required fields is ambiguous") :=
  ⟨⟨by decide, by decide⟩,
   claim_C8_ambiguity_abort demoAmbig ⟨"x", .nstrukt demoAllOpt, false⟩ demoAllOpt
     (by decide) rfl rfl (by decide)⟩

/-- Claim C9: a repetition token with bounds (minR, maxR) under requested
minimum length `minLen` emits `max(minR, min(minLen, maxR))` copies of its
generated subpattern when `minLen` is nonzero (else `minR` copies), emitting
nothing when that count is zero; and on the pattern `[a-c]{3}` with minimum
length 3 the engine synthesizes the 3-character string `aaa`, all characters
drawn from a–c. -/
theorem claim_C9_repetition_count :
    (∀ (minLen minR maxR : Nat) (refs : List (Nat × List Nat)) (sub : List RTok),
      (if minLen ≠ 0 then max minR (min minLen maxR) else minR) = 0 →
      genTok minLen refs (.repeatTok minR maxR sub) = .ok ([], refs))
    ∧ (∀ (minLen minR maxR : Nat) (refs : List (Nat × List Nat)) (sub : List RTok)
        (s : List Nat) (r1 : List (Nat × List Nat)),
      (if minLen ≠ 0 then max minR (min minLen maxR) else minR) ≠ 0 →
      genList minLen refs sub = .ok (s, r1) →
      genTok minLen refs (.repeatTok minR maxR sub)
        = .ok ((List.replicate
            (if minLen ≠ 0 then max minR (min minLen maxR) else minR) s).flatten, r1))
    ∧ genList 3 [] [.repeatTok 3 3 [.inCls [.rangeTok 97 99]]] = .ok ([97, 97, 97], [])
    ∧ ([97, 97, 97] : List Nat).length = 3
    ∧ (∀ c ∈ ([97, 97, 97] : List Nat), 97 ≤ c ∧ c ≤ 99) := by
  refine ⟨?_, ?_, rfl, rfl, by decide⟩
  · intro minLen minR maxR refs sub h
    have hz : genTok minLen refs (.repeatTok minR maxR sub)
        = (if (if minLen ≠ 0 then max minR (min minLen maxR) else minR) = 0
           then .ok ([], refs)
           else do
             let (s, r1) ← genList minLen refs sub
             .ok ((List.replicate
               (if minLen ≠ 0 then max minR (min minLen maxR) else minR) s).flatten,
               r1)) := rfl
    rw [hz, if_pos h]
  · intro minLen minR maxR refs sub s r1 h hgen
    have hz : genTok minLen refs (.repeatTok minR maxR sub)
        = (if (if minLen ≠ 0 then max minR (min minLen maxR) else minR) = 0
           then .ok ([], refs)
           else do
             let (s, r1) ← genList minLen refs sub
             .ok ((List.replicate
               (if minLen ≠ 0 then max minR (min minLen maxR) else minR) s).flatten,
               r1)) := rfl
    rw [hz, if_neg h, hgen]
    rfl

theorem claim_C9_repetition_count_witness :
    ((if (3 : Nat) ≠ 0 then max 3 (min 3 3) else 3) ≠ 0
      ∧ genList 3 [] [.inCls [.rangeTok 97 99]] = .ok ([97], []))
    ∧ genTok 3 [] (.repeatTok 3 3 [.inCls [.rangeTok 97 99]])
        = .ok ((List.replicate (if (3 : Nat) ≠ 0 then max 3 (min 3 3) else 3) [97]).flatten,
            []) :=
  ⟨⟨by decide, rfl⟩,
   claim_C9_repetition_count.2.1 3 3 3 [] [.inCls [.rangeTok 97 99]] [97] []
     (by decide) rfl⟩

/-- Claim C10 (refuted — code bug): the negated-character-class branch of
`Unregex._generate` is dead code on Python 3 — only the loop's `opcode` is
`str(...).lower()`-converted, so the guard `argument[0][0] == 'negate'`
compares an sre `_NamedIntConstant` to a str and is always False.  A negated
class therefore falls through to the else branch, recurses on its first item
`(NEGATE, None)`, and raises
`NotImplementedError('regex opcode negate not implemented')`: the engine
never emits any character for a negated class — in particular not the first
printable, non-whitespace character outside the rejection set, which is
never even computed. -/
theorem claim_C10_negated_class_bug :
    (∀ (minLen : Nat) (refs : List (Nat × List Nat)) (rest : List RTok),
      genTok minLen refs (.inCls (.negate :: rest))
        = .error "NotImplementedError: regex opcode negate not implemented")
    ∧ genTok 0 [] (.inCls [.negate, .rangeTok 33 126])
        = .error "NotImplementedError: regex opcode negate not implemented"
    ∧ genList 0 [] [.inCls [.negate, .rangeTok 33 126]]
        = .error "NotImplementedError: regex opcode negate not implemented" := by
  refine ⟨?_, rfl, rfl⟩
  intro minLen refs rest
  rfl

end StoneRust
